import Mathlib

/-
Verification of the artifact metadata resolution pipeline and source
reconciler of src/main.py.  Python strings are modelled as lists of
characters; Python dicts (which preserve insertion order) are modelled as
association lists with Python's update-in-place / append-at-end assignment;
the external collaborators (package manager, archive listing, manifest
retrieval) are modelled as injected functions, as the specification's
design notes direct.
-/

/-- Python strings are modelled as lists of characters. -/
abbrev Str := List Char

/-- Whitespace characters of Python's str.strip and of the regex whitespace
class, restricted to the ASCII range: every value the program handles here is
ASCII. -/
def pyWhitespace : List Char := [' ', '\t', '\n', '\r', '\x0B', '\x0C']

def isPyWs (c : Char) : Bool := pyWhitespace.contains c

/-- Model of Python str.strip with no arguments: drop leading and trailing
whitespace. -/
def pyStrip (s : Str) : Str := ((s.dropWhile isPyWs).reverse.dropWhile isPyWs).reverse

def noNewline (s : Str) : Bool := !(s.contains '\n')

/-- In Python an anchored dollar also matches just before one final newline;
this helper removes such a final newline before an anchored pattern is
tested against the rest of the string. -/
def stripFinalNewline (s : Str) : Str := if s.getLast? = some '\n' then s.dropLast else s

def isAsciiDigitChar (c : Char) : Bool := '0' ≤ c && c ≤ '9'

/-- Character class of the source regex CONTAINS_ALPHA_VALUES, written
[a-z|A-Z]: lowercase letters, uppercase letters, and - because the bar sits
inside the class - the literal bar character itself. -/
def isAlphaOrBar (c : Char) : Bool := ('a' ≤ c && c ≤ 'z') || ('A' ≤ c && c ≤ 'Z') || c == '|'

/-- re.match of the anchored DOT_DELIMINATED pattern of
test_metadata_against_type_criteria: one or more non-newline characters, a
literal dot, then one or more non-newline characters. -/
def match_dot_deliminated (s : Str) : Bool :=
  let p := stripFinalNewline s
  noNewline p &&
    (List.range p.length).any (fun i => p.getD i ' ' == '.' && decide (0 < i) && decide (i + 1 < p.length))

/-- re.match of the anchored CONTAINS_NUMERIC_VALUES pattern: any characters,
at least one ASCII digit, any characters. -/
def match_contains_numeric (s : Str) : Bool :=
  let p := stripFinalNewline s
  noNewline p && p.any isAsciiDigitChar

/-- re.match of the anchored CONTAINS_ALPHA_VALUES pattern: any characters,
at least one character of the class [a-z|A-Z], any characters. -/
def match_contains_alpha (s : Str) : Bool :=
  let p := stripFinalNewline s
  noNewline p && p.any isAlphaOrBar

/-- re.match of the anchored CONTAINS_NO_SPACES pattern: optional whitespace,
one run of non-whitespace, optional whitespace.  The whitespace class itself
absorbs a final newline, so no newline stripping is needed. -/
def match_contains_no_spaces (s : Str) : Bool :=
  let t := pyStrip s
  !t.isEmpty && t.all (fun c => !isPyWs c)

def kName : Str := "name".data

def kGroupId : Str := "group-id".data

def kArtifactId : Str := "artifact-id".data

def kVersion : Str := "version".data

/-- Embedding of test_metadata_against_type_criteria (src/main.py 190-209).
A None value is rejected up front.  An unknown field name raises KeyError in
Python - a programming error per the specification, unreachable in the
program - and is modelled as false here. -/
def test_metadata_against_type_criteria (metadata_key : Str) (metadata_value : Option Str) : Bool :=
  match metadata_value with
  | none => false
  | some v =>
    if metadata_key = kName then match_contains_alpha v
    else if metadata_key = kGroupId then match_contains_alpha v && match_contains_no_spaces v
    else if metadata_key = kArtifactId then match_contains_alpha v && match_contains_no_spaces v
    else if metadata_key = kVersion then
      match_dot_deliminated v && match_contains_numeric v && match_contains_no_spaces v
    else false

def barStr : Str := "|".data

def spaceAStr : Str := " a".data

/-- Python dict membership test, over a dict modelled as an association
list. -/
def dHas {α : Type} (d : List (Str × α)) (k : Str) : Bool := d.any (fun p => p.1 == k)

/-- Python dict lookup: the value at the key, if present. -/
def dGet {α : Type} (d : List (Str × α)) (k : Str) : Option α :=
  (d.find? (fun p => p.1 == k)).map (fun p => p.2)

/-- Python dict assignment d[k] = v: update in place when the key already
exists (keeping its position), otherwise append at the end.  Keys of a
Python dict are unique, so updating the first occurrence is faithful. -/
def dput {α : Type} : List (Str × α) → Str → α → List (Str × α)
  | [], k, v => [(k, v)]
  | p :: rest, k, v => if p.1 == k then (k, v) :: rest else p :: dput rest k v

/-- Metadata record of one archive: field name to value, in insertion order. -/
abbrev Rec := List (Str × Str)

/-- The process-wide metadata store GLOBAL_FOUND_METADATA: archive path to
metadata record, in insertion order. -/
abbrev Store := List (Str × Rec)

def lowerStr (s : Str) : Str := s.map Char.toLower

/-- Case-insensitive substring containment: the model of
re.search(pattern, line, re.IGNORECASE) for the manifest header literals,
which contain no regex metacharacters. -/
def searchCI (pat line : Str) : Bool :=
  (lowerStr line).tails.any (fun t => (lowerStr pat).isPrefixOf t)

/-- Splitting on newline characters.  Python splitlines omits a final empty
piece after a trailing newline, but every such empty piece is filtered out by
the callers, so the difference is unobservable; other Unicode line breaks do
not occur in the handled data. -/
def splitOnNl : Str → List Str
  | [] => [[]]
  | c :: rest =>
    let r := splitOnNl rest
    if c = '\n' then [] :: r
    else
      match r with
      | [] => [[c]]
      | h :: t => (c :: h) :: t

def hExtensionName : Str := "Extension-Name:".data

def hImplementationTitle : Str := "Implementation-Title:".data

def hBundleSymbolicName : Str := "Bundle-SymbolicName:".data

def hSpecificationTitle : Str := "Specification-Title:".data

def hImplementationVendorId : Str := "Implementation-Vendor-Id:".data

def hBundleVersion : Str := "Bundle-Version:".data

def hSpecificationVersion : Str := "Specification-Version:".data

def hImplementationVersion : Str := "Implementation-Version:".data

def nameSyns : List Str := [hExtensionName, hImplementationTitle, hBundleSymbolicName, hSpecificationTitle]

def groupIdSyns : List Str := [hSpecificationTitle, hImplementationVendorId, hImplementationTitle]

def artifactIdSyns : List Str := [hSpecificationTitle, hExtensionName, hImplementationTitle, hBundleSymbolicName]

def versionSyns : List Str := [hBundleVersion, hSpecificationVersion, hImplementationVersion]

/-- The metadata_key_to_manifest_search_strings_map of parse_manifest, in its
insertion order. -/
def manifestFieldOrder : List (Str × List Str) :=
  [(kName, nameSyns), (kGroupId, groupIdSyns), (kArtifactId, artifactIdSyns), (kVersion, versionSyns)]

/-- On a match, the source takes match.string - the whole line - sliced from
the length of the header literal, then strips it:
line[len(manifest_string):].strip(). -/
def manifestMatchValue (manifest_string line : Str) : Str :=
  pyStrip (line.drop manifest_string.length)

/-- Embedding of parse_manifest (src/main.py 212-236): for each field, for
each header synonym in worst-to-best order, for each non-empty line, a
case-insensitive search; on a match the sliced and stripped line overwrites
the value captured so far for that field.  The None check on the stripped
value never fires, since strip always returns a string. -/
def parse_manifest (manifest : Str) : Rec :=
  if manifest.isEmpty then []
  else
    manifestFieldOrder.foldl (fun d kv =>
      kv.2.foldl (fun d manifest_string =>
        (splitOnNl manifest).foldl (fun d line =>
          if !line.isEmpty && searchCI manifest_string line then
            dput d kv.1 (manifestMatchValue manifest_string line)
          else d) d) d) []

/-- Python substring containment, the operator in of one string in another. -/
def isSubstrOf (s t : Str) : Bool := t.tails.any (fun u => s.isPrefixOf u)

/-- One pass of the occurrence-count accumulation of
find_longest_common_substring: increment the count of a key, inserting it
with count one when absent. -/
def dincr : List (Str × Nat) → Str → List (Str × Nat)
  | [], k => [(k, 1)]
  | p :: rest, k => if p.1 == k then (p.1, p.2 + 1) :: rest else p :: dincr rest k

/-- The occurrences dictionary of find_longest_common_substring: for each
substring of the list, in list order, how many members of the list contain it
(itself included). -/
def occurrencesOf (all_substrings : List Str) : List (Str × Nat) :=
  all_substrings.foldl (fun d s =>
    all_substrings.foldl (fun d t => if isSubstrOf s t then dincr d s else d) d) []

/-- Python string comparison: lexicographic over code points. -/
def ltStr : Str → Str → Bool
  | [], [] => false
  | [], _ :: _ => true
  | _ :: _, [] => false
  | a :: as, b :: bs => if a < b then true else if b < a then false else ltStr as bs

/-- Python max over a collection of strings: the lexicographically greatest
element (the first of them when repeated, though dict keys never repeat). -/
def maxLex (l : List Str) : Str := l.foldl (fun a b => if ltStr a b then b else a) (l.headD [])

/-- Embedding of find_longest_common_substring (src/main.py 308-335).  The
source calls sorted on the occurrence items and discards the result, so the
reference count maximum_occurrence is the value of the first key of the
unsorted dictionary, that is of the first substring of the input list.  The
threshold math.floor(maximum_occurrence * 0.80) is modelled as
maximum_occurrence * 4 / 5 in natural division: for every count n that can
arise, the floating-point product n * 0.8 rounds to a value whose floor is
exactly the floor of the rational 4 * n / 5. -/
def find_longest_common_substring (all_substrings : List Str) : Str :=
  if all_substrings.isEmpty then []
  else
    let occurrences := occurrencesOf all_substrings
    if !occurrences.isEmpty then
      let maximum_occurrence := (occurrences.headD ([], 0)).2
      let threshold := maximum_occurrence * 4 / 5
      let high_occurrence_strings := occurrences.filter (fun p => threshold ≤ p.2)
      maxLex (high_occurrence_strings.map (fun p => p.1))
    else []

def dotClassSuffix : Str := ".class".data

def lowerEq (a b : Char) : Bool := a.toLower == b.toLower

/-- Case-insensitive suffix test used for the trailing .class literal. -/
def endsWithCI (suffix s : Str) : Bool := (lowerStr suffix).isSuffixOf (lowerStr s)

def dropTrailingDigits (s : Str) : Str := (s.reverse.dropWhile isAsciiDigitChar).reverse

/-- Embedding of remove_path_suffix (src/main.py 297-305): re.sub of the
case-insensitive anchored pattern of an optional dollar, digits and a literal
.class suffix.  The leftmost match of that anchored pattern removes, from the
right, the .class suffix, then the maximal run of digits, then one optional
dollar. -/
def remove_path_suffix (substring : Str) : Str :=
  if substring.isEmpty then []
  else if endsWithCI dotClassSuffix substring then
    let t := substring.take (substring.length - dotClassSuffix.length)
    let t2 := dropTrailingDigits t
    if t2.getLast? = some '$' then t2.dropLast else t2
  else substring

def isDelim (c : Char) : Bool := c == '$' || c == '/' || c == '\\'

/-- Embedding of deliminator_indices (src/main.py 345-356): the indices of
the characters dollar, slash and backslash. -/
def deliminator_indices (substring : Str) : List Nat :=
  (List.range substring.length).filter (fun i => isDelim (substring.getD i ' '))

/-- Embedding of deliminators_to_dots (src/main.py 359-368), with an explicit
fuel argument for the recursion: the loop rebuilds the string at each stale
delimiter index while recursing on the tail after the index.  Each recursive
call receives a strictly shorter string than the fuel, and the loop preserves
the length of the string, so with fuel equal to the length the zero-fuel
branch is reached only on the empty string, where the source also returns the
string unchanged. -/
def deliminatorsToDotsFuel : Nat → Str → Str
  | 0, s => s
  | n + 1, s =>
    (deliminator_indices s).foldl
      (fun cur i => cur.take i ++ '.' :: deliminatorsToDotsFuel n (cur.drop (i + 1))) s

def deliminators_to_dots (deliminated_string : Str) : Str :=
  deliminatorsToDotsFuel deliminated_string.length deliminated_string

/-- Embedding of remove_duplicates and dedupe (src/main.py 51-54, 338-342):
list(dict.fromkeys(xs)), keeping the first occurrence of each element. -/
def remove_duplicates (ordered_list : List Str) : List Str :=
  ordered_list.foldl (fun acc s => if acc.contains s then acc else acc ++ [s]) []

/-- re.match of the anchored ends_in_dot_class pattern of
find_most_common_substring: one or more non-newline characters followed by a
case-insensitive literal .class. -/
def matchEndsInDotClass (s : Str) : Bool :=
  let p := stripFinalNewline s
  noNewline p && decide (dotClassSuffix.length < p.length) && endsWithCI dotClassSuffix p

/-- Embedding of find_most_common_substring (src/main.py 371-387): collect,
for every internal path that looks like a compiled unit, every prefix cut at
a delimiter or at the end, cleaned of its compiled-unit suffix, then dedupe
and hand the universe to find_longest_common_substring. -/
def find_most_common_substring (path_strings : List Str) : Str :=
  let all_substrings := path_strings.foldl (fun acc path_string =>
    if path_string.isEmpty || !matchEndsInDotClass path_string then acc
    else
      let delimiters := deliminator_indices path_string ++ [path_string.length]
      delimiters.foldl (fun acc substring_end_index =>
        let substring := path_string.take substring_end_index
        if !substring.isEmpty && !delimiters.isEmpty then
          acc ++ [remove_path_suffix substring]
        else acc) acc) []
  if !all_substrings.isEmpty then
    find_longest_common_substring (remove_duplicates all_substrings)
  else []

/-- The tail component of os.path.split on a POSIX path: everything after
the last slash. -/
def pyBasename (s : Str) : Str := (s.reverse.takeWhile (fun c => c != '/')).reverse

/-- The index of the last occurrence of a character, if any. -/
def lastIndexOf (c : Char) (s : Str) : Option Nat :=
  ((List.range s.length).filter (fun i => s.getD i ' ' == c)).getLast?

/-- The root part of os.path.splitext: the extension starts at the last dot
that lies inside the final path component and has at least one non-dot
character of that component before it; otherwise the path is returned
whole. -/
def splitExtRoot (p : Str) : Str :=
  match lastIndexOf '.' p with
  | none => p
  | some dotIndex =>
    let filenameIndex : Nat :=
      match lastIndexOf '/' p with
      | none => 0
      | some sepIndex => sepIndex + 1
    if filenameIndex ≤ dotIndex &&
        (List.range dotIndex).any (fun k => filenameIndex ≤ k && p.getD k ' ' != '.') then
      p.take dotIndex
    else p

/-- Embedding of without_file_extensions (src/main.py 515-521): keep the
splitext root of every non-empty path. -/
def without_file_extensions (file_paths : List Str) : List Str :=
  file_paths.foldl (fun acc file_path =>
    if !file_path.isEmpty then acc ++ [splitExtRoot file_path] else acc) []

/-- Embedding of without_compiled_inner_classes (src/main.py 507-512): keep
the non-empty paths whose basename contains no dollar. -/
def without_compiled_inner_classes (file_paths : List Str) : List Str :=
  file_paths.foldl (fun acc file_path =>
    if !file_path.isEmpty && !(pyBasename file_path).contains '$' then acc ++ [file_path]
    else acc) []

/-- The recursion of compare_last_url_components on two present strings: the
count parameter is a natural number, the guard max_number_of_components <= 0
is the zero case, and each recursive call passes the two tail components of
os.path.split. -/
def compareLastUrlGo : Str → Str → Nat → Bool
  | _, _, 0 => true
  | s, t, n + 1 =>
    let filename := pyBasename s
    let compare_filename := pyBasename t
    if filename = compare_filename then compareLastUrlGo filename compare_filename n
    else false

/-- Embedding of compare_last_url_components (src/main.py 536-552).  The
None cases of the source's match statement are modelled with Option; the
source's pattern of two empty list literals can never match a string value
and is omitted. -/
def compare_last_url_components (string compare_to : Option Str) (max_number_of_components : Nat) : Bool :=
  match string, compare_to with
  | none, none => true
  | none, some _ => false
  | some _, none => false
  | some a, some b => compareLastUrlGo a b max_number_of_components

/-- Embedding of identify_unique_loose_java_files (src/main.py 555-568),
with the two global file lists passed explicitly.  A loose file for which
some archive-embedded file has an equal trailing component is appended - at
the same index of the unextensioned list - from the original loose list. -/
def identify_unique_loose_java_files (globalLoose globalInJars : List Str) : List Str :=
  let loose_java_files := without_file_extensions globalLoose
  let jar_based_java_files := without_compiled_inner_classes (without_file_extensions globalInJars)
  let unique_java_files := (List.range loose_java_files.length).foldl (fun acc index =>
    let loose_file := loose_java_files.getD index []
    if jar_based_java_files.any (fun jb => compare_last_url_components (some loose_file) (some jb) 3) then
      acc ++ [globalLoose.getD index []]
    else acc) []
  remove_duplicates unique_java_files

/-- Splitting a path on slash characters, as Python str.split with a slash
separator. -/
def splitOnSlash : Str → List Str
  | [] => [[]]
  | c :: rest =>
    let r := splitOnSlash rest
    if c = '/' then [] :: r
    else
      match r with
      | [] => [[c]]
      | h :: t => (c :: h) :: t

def dotComp : Str := ".".data

def dotdotComp : Str := "..".data

/-- Model of os.path.normpath for POSIX paths: count the initial slashes
(two stay two, one or three-plus become one), drop empty and single-dot
components, resolve double-dot components against the stack, and rejoin. -/
def pyNormpath (p : Str) : Str :=
  if p.isEmpty then dotComp
  else
    let initialSlashes : Nat :=
      if p.take 2 == ['/', '/'] && !(p.take 3 == ['/', '/', '/']) then 2
      else if p.take 1 == ['/'] then 1
      else 0
    let comps := splitOnSlash p
    let newComps := comps.foldl (fun acc comp =>
      if comp.isEmpty || comp == dotComp then acc
      else if comp != dotdotComp || (initialSlashes == 0 && acc.isEmpty) ||
          (!acc.isEmpty && acc.getLast? == some dotdotComp) then acc ++ [comp]
      else if !acc.isEmpty then acc.dropLast
      else acc) []
    let joined := List.replicate initialSlashes '/' ++ List.intercalate ['/'] newComps
    if joined.isEmpty then dotComp else joined

/-- Python rfind-based slice group_id[group_id.rfind(dot) + 1:], applied by
the path-inference strategy when the group identifier contains a dot. -/
def afterLastDot (s : Str) : Str := (s.reverse.takeWhile (fun c => c != '.')).reverse

/-- The external collaborators of the pipeline, modelled as injected
capabilities per the specification: the exit status of the plain and of the
fully-qualified package-manager invocation, the internal member listing of an
archive, and its manifest text (empty on a failed retrieval). -/
structure PipelineEnv where
  directInstallOk : Str → Bool
  metadataInstallOk : Str → Bool
  jarListing : Str → List Str
  manifestText : Str → Str

/-- Embedding of try_maven_install (src/main.py 149-169): the sublist of
archives whose install command exits with status zero, in order. -/
def try_maven_install (ok : Str → Bool) (jars : List Str) : List Str := jars.filter ok

/-- Embedding of merge_metadata (src/main.py 239-254).  The values of the
merged-in dict are strings here, so its None guard always passes. -/
def merge_metadata (base_metadata metadata_to_merge_in : Rec) (overwrite : Bool) : Rec :=
  if base_metadata.isEmpty then metadata_to_merge_in
  else if metadata_to_merge_in.isEmpty then base_metadata
  else
    metadata_to_merge_in.foldl (fun base kv =>
      if overwrite || !dHas base kv.1 then dput base kv.1 kv.2 else base) base_metadata

/-- Embedding of add_to_global_metadata (src/main.py 257-273): filter the
candidates through the validator, then merge the surviving ones into the
record of the archive, creating the record when absent. -/
def add_to_global_metadata (store : Store) (jar : Str) (metadata : Rec) (overwrite : Bool) : Store :=
  if !jar.isEmpty && !metadata.isEmpty then
    let valid_metadata := metadata.foldl (fun acc kv =>
      if test_metadata_against_type_criteria kv.1 (some kv.2) then dput acc kv.1 kv.2 else acc) []
    if dHas store jar then
      dput store jar (merge_metadata ((dGet store jar).getD []) valid_metadata overwrite)
    else dput store jar valid_metadata
  else store

/-- Embedding of metadata_strategy_parse_manifest (src/main.py 276-294): the
manifest of each archive (empty text when retrieval fails) is parsed and
merged without overwriting; the strategy resolves nothing. -/
def metadata_strategy_parse_manifest (env : PipelineEnv) (store : Store) (jars : List Str) : Store :=
  jars.foldl (fun st jar => add_to_global_metadata st jar (parse_manifest (env.manifestText jar)) false) store

/-- Embedding of metadata_strategy_infer_from_paths (src/main.py 390-412):
infer a dotted group identifier from the archive's member listing, derive the
artifact identifier after its last dot, and merge without overwriting. -/
def metadata_strategy_infer_from_paths (env : PipelineEnv) (store : Store) (jars : List Str) : Store :=
  jars.foldl (fun st jar =>
    let jar_file_tree_list := env.jarListing jar
    let common_substring := find_most_common_substring jar_file_tree_list
    let group_id := deliminators_to_dots common_substring
    if !group_id.isEmpty then
      let artifact_id := if group_id.contains '.' then afterLastDot group_id else group_id
      add_to_global_metadata st jar [(kGroupId, group_id), (kArtifactId, artifact_id)] false
    else st) store

/-- The insert_value of fill_metadata: the given value, or - when the value
argument is None - the basename of the normalized archive path. -/
def fillInsertValue (jar : Str) (metadata_value : Option Str) : Str :=
  match metadata_value with
  | some v => v
  | none => pyBasename (pyNormpath jar)

/-- Embedding of fill_metadata (src/main.py 415-428): when the archive has
no record yet the key-value pair is written directly, with no validation;
otherwise a missing key is added through the validating merge.  A None value
argument means the basename of the normalized archive path. -/
def fill_metadata (store : Store) (jars : List Str) (metadata_key : Str) (metadata_value : Option Str) : Store :=
  jars.foldl (fun st jar =>
    let insert_value := fillInsertValue jar metadata_value
    if !dHas st jar then dput st jar [(metadata_key, insert_value)]
    else if !dHas ((dGet st jar).getD []) metadata_key then
      add_to_global_metadata st jar [(metadata_key, insert_value)] false
    else st) store

def ver10 : Str := "1.0".data

/-- Embedding of metadata_strategy_fill_dummy_values (src/main.py 431-451):
fill version with 1.0, then name, artifact-id and group-id with the archive
basename, in that order. -/
def metadata_strategy_fill_dummy_values (store : Store) (jars : List Str) : Store :=
  fill_metadata
    (fill_metadata
      (fill_metadata
        (fill_metadata store jars kVersion (some ver10))
        jars kName none)
      jars kArtifactId none)
    jars kGroupId none

/-- Embedding of find_metadata_complete_jars (src/main.py 483-491): split
the store into the records with exactly four entries and the rest. -/
def find_metadata_complete_jars (store : Store) : Store × Store :=
  store.partition (fun p => !p.2.isEmpty && p.2.length == 4)

/-- Embedding of metadata_strategy_maven_install_from_metadata (src/main.py
181-187): attempt the fully-qualified install on the archives whose record
is complete. -/
def metadata_strategy_maven_install_from_metadata (env : PipelineEnv) (store : Store) : List Str :=
  try_maven_install env.metadataInstallOk ((find_metadata_complete_jars store).1.map (fun p => p.1))

/-- Embedding of remove_all_from_list (src/main.py 454-458). -/
def remove_all_from_list (a_list to_remove : List Str) : List Str :=
  if !to_remove.isEmpty then a_list.filter (fun i => !to_remove.contains i) else a_list

/-- The five strategies of the main program, in pipeline order. -/
inductive JarStrategy where
  | directInstall
  | inferFromPaths
  | manifestExtract
  | fillDummy
  | installFromMetadata
deriving DecidableEq

/-- The pending list and the process-wide metadata store. -/
structure PipelineState where
  pending : List Str
  store : Store
deriving DecidableEq

/-- The store update and the resolved subset of one strategy.  The metadata
strategies return an empty subset (the source returns None or an empty
list, both falsy). -/
def applyStrategy (env : PipelineEnv) (store : Store) (pending : List Str) : JarStrategy → Store × List Str
  | .directInstall => (store, try_maven_install env.directInstallOk pending)
  | .inferFromPaths => (metadata_strategy_infer_from_paths env store pending, [])
  | .manifestExtract => (metadata_strategy_parse_manifest env store pending, [])
  | .fillDummy => (metadata_strategy_fill_dummy_values store pending, [])
  | .installFromMetadata => (store, metadata_strategy_maven_install_from_metadata env store)

/-- Embedding of run_strategy (src/main.py 461-466): run the strategy on the
pending list and remove its resolved subset. -/
def run_strategy (env : PipelineEnv) (st : PipelineState) (strategy : JarStrategy) : PipelineState :=
  let r := applyStrategy env st.store st.pending strategy
  ⟨remove_all_from_list st.pending r.2, r.1⟩

def strategyOrder : List JarStrategy :=
  [.directInstall, .inferFromPaths, .manifestExtract, .fillDummy, .installFromMetadata]

/-- Embedding of run_jar_strategies over the strategy list of the main
program (src/main.py 469-480, 601-607), from the discovered archives and an
empty store. -/
def run_jar_strategies (env : PipelineEnv) (jars : List Str) : PipelineState :=
  strategyOrder.foldl (run_strategy env) ⟨jars, []⟩

/-- The state after the first n strategy steps of the pipeline. -/
def runFirstStrategies (env : PipelineEnv) (jars : List Str) (n : Nat) : PipelineState :=
  (strategyOrder.take n).foldl (run_strategy env) ⟨jars, []⟩

/-- Every value of every record of the store passes the validator of its
field. -/
def ValidStore (store : Store) : Prop :=
  ∀ p ∈ store, ∀ q ∈ p.2, test_metadata_against_type_criteria q.1 (some q.2) = true

def canonicalKeyList : List Str := [kName, kGroupId, kArtifactId, kVersion]

/-- Every field of every record of the store is one of the four canonical
fields. -/
def CanonStore (store : Store) : Prop :=
  ∀ p ∈ store, ∀ q ∈ p.2, q.1 ∈ canonicalKeyList

/-- The archive keys of the store and the field keys of each record are free
of duplicates, as Python dict keys always are. -/
def NodupStore (store : Store) : Prop :=
  (store.map (fun p => p.1)).Nodup ∧ ∀ p ∈ store, (p.2.map (fun q => q.1)).Nodup

/-- The value of one field of one archive of the store. -/
def recGet2 (store : Store) (jar field : Str) : Option Str :=
  match dGet store jar with
  | none => none
  | some r => dGet r field

/-- The synthetic default of the dummy-fill strategy for a field. -/
def dummyDefault (field jar : Str) : Str :=
  if field = kVersion then ver10 else pyBasename (pyNormpath jar)


/-- The inner loop of parse_manifest for one field and one header synonym
over the lines of the manifest. -/
def processLines (d : Rec) (key manifest_string : Str) (lines : List Str) : Rec :=
  lines.foldl (fun d line =>
    if !line.isEmpty && searchCI manifest_string line then
      dput d key (manifestMatchValue manifest_string line)
    else d) d

/-- The loop of parse_manifest for one field over its synonym list. -/
def processField (d : Rec) (key : Str) (syns : List Str) (lines : List Str) : Rec :=
  syns.foldl (fun d manifest_string => processLines d key manifest_string lines) d

/-- Whether some non-empty line of the manifest matches the header synonym
case-insensitively. -/
def synHasMatch (lines : List Str) (manifest_string : Str) : Bool :=
  lines.any (fun line => !line.isEmpty && searchCI manifest_string line)

/-- The last non-empty line matching the header synonym, if any. -/
def lastMatchingLine (lines : List Str) (manifest_string : Str) : Option Str :=
  (lines.filter (fun line => !line.isEmpty && searchCI manifest_string line)).getLast?

/-- The candidate described by the claim for one field: the last synonym of
the field's precedence list that matches any line contributes its value,
taken from its last matching line. -/
def lastSynContribution (lines : List Str) (syns : List Str) : Option Str :=
  match (syns.filter (synHasMatch lines)).getLast? with
  | none => none
  | some manifest_string => (lastMatchingLine lines manifest_string).map (manifestMatchValue manifest_string)

/-- Manifest fixture of the spec: two lines, an Implementation-Title of A
and a Bundle-SymbolicName of B. -/
def fixtureManifest : Str := "Implementation-Title: A\nBundle-SymbolicName: B".data

def valA : Str := "A".data

def valB : Str := "B".data

/-- A line in which the Implementation-Title header occurs at position two
rather than at the start of the line. -/
def midLineManifest : Str := "xxImplementation-Title: A".data

/-- What the source stores for that line: the line with its first
twenty-one characters (the header length) removed, stripped. -/
def midLineStored : Str := "e: A".data

def zS : Str := "z".data

def aS : Str := "a".data

def abS : Str := "ab".data

def acS : Str := "ac".data

def adS : Str := "ad".data

def aeS : Str := "ae".data

/-- A substring universe on which the first-listed member occurs once while
the most frequent member occurs five times. -/
def commonalityUniverse : List Str := [zS, aS, abS, acS, adS, aeS]

def maxNat (l : List Nat) : Nat := l.foldr max 0

def looseFooJava : Str := "proj/src/main/java/org/acme/Foo.java".data

def embeddedFooClass : Str := "org/acme/Foo.class".data

def looseBarJava : Str := "a/Bar.java".data

def abJar : Str := "/r/a b.jar".data

def okJar : Str := "/r/ok.jar".data

def twoJars : List Str := [abJar, okJar]

/-- Environment in which the plain install succeeds exactly on the second
archive and every other collaborator yields nothing. -/
def envDirectOk : PipelineEnv :=
  ⟨fun j => j == okJar, fun _ => false, fun _ => [], fun _ => []⟩

def aJar : Str := "a.jar".data

/-- Environment in which every install fails and every listing and manifest
is empty. -/
def envAllFail : PipelineEnv :=
  ⟨fun _ => false, fun _ => false, fun _ => [], fun _ => []⟩

def abJarBase : Str := "a b.jar".data

def aJarBase : Str := "a.jar".data

theorem dGet_cons {α : Type} (p : Str × α) (l : List (Str × α)) (k : Str) :
    dGet (p :: l) k = if p.1 == k then some p.2 else dGet l k := by
  cases h : p.1 == k <;> simp [dGet, List.find?, h]

theorem dHas_cons {α : Type} (p : Str × α) (l : List (Str × α)) (k : Str) :
    dHas (p :: l) k = (p.1 == k || dHas l k) := by
  simp [dHas]

theorem dGet_dput_self {α : Type} (d : List (Str × α)) (k : Str) (v : α) :
    dGet (dput d k v) k = some v := by
  induction d with
  | nil => simp [dput, dGet_cons]
  | cons p rest ih =>
    cases h : p.1 == k with
    | true => simp [dput, h, dGet_cons]
    | false => simp [dput, h, dGet_cons, ih]

theorem dGet_dput_ne {α : Type} (d : List (Str × α)) (k k' : Str) (v : α) (hne : k' ≠ k) :
    dGet (dput d k v) k' = dGet d k' := by
  have hkk : (k == k') = false := beq_eq_false_iff_ne.mpr (Ne.symm hne)
  induction d with
  | nil => simp [dput, dGet_cons, hkk, dGet]
  | cons p rest ih =>
    cases h : p.1 == k with
    | true =>
      have hp : p.1 = k := eq_of_beq h
      simp [dput, h, dGet_cons, hkk, hp]
    | false => simp [dput, h, dGet_cons, ih]

theorem dHas_dput_self {α : Type} (d : List (Str × α)) (k : Str) (v : α) :
    dHas (dput d k v) k = true := by
  induction d with
  | nil => simp [dput, dHas_cons]
  | cons p rest ih =>
    cases h : p.1 == k with
    | true => simp [dput, h, dHas_cons]
    | false => simp [dput, h, dHas_cons, ih]

theorem dHas_dput_ne {α : Type} (d : List (Str × α)) (k k' : Str) (v : α) (hne : k' ≠ k) :
    dHas (dput d k v) k' = dHas d k' := by
  have hkk : (k == k') = false := beq_eq_false_iff_ne.mpr (Ne.symm hne)
  induction d with
  | nil => simp [dput, dHas_cons, hkk, dHas]
  | cons p rest ih =>
    cases h : p.1 == k with
    | true =>
      have hp : p.1 = k := eq_of_beq h
      simp [dput, h, dHas_cons, hkk, hp]
    | false => simp [dput, h, dHas_cons, ih]

theorem mem_dput {α : Type} (d : List (Str × α)) (k : Str) (v : α) (q : Str × α)
    (hq : q ∈ dput d k v) : q ∈ d ∨ q = (k, v) := by
  induction d with
  | nil => simp [dput] at hq; simp [hq]
  | cons p rest ih =>
    cases h : p.1 == k with
    | true =>
      rw [dput, if_pos h] at hq
      rcases List.mem_cons.mp hq with h1 | h1
      · exact Or.inr h1
      · exact Or.inl (List.mem_cons_of_mem _ h1)
    | false =>
      rw [dput, if_neg (by simp [h])] at hq
      rcases List.mem_cons.mp hq with h1 | h1
      · exact Or.inl (List.mem_cons.mpr (Or.inl h1))
      · rcases ih h1 with h2 | h2
        · exact Or.inl (List.mem_cons_of_mem _ h2)
        · exact Or.inr h2

theorem keys_dput {α : Type} (d : List (Str × α)) (k : Str) (v : α) :
    (dput d k v).map (fun p => p.1) =
      if dHas d k then d.map (fun p => p.1) else d.map (fun p => p.1) ++ [k] := by
  induction d with
  | nil => simp [dput, dHas]
  | cons p rest ih =>
    cases h : p.1 == k with
    | true =>
      have hp : p.1 = k := eq_of_beq h
      simp [dput, h, dHas_cons, hp]
    | false =>
      cases h2 : dHas rest k with
      | true => simp [dput, h, dHas_cons, ih, h2]
      | false => simp [dput, h, dHas_cons, ih, h2]

theorem pyBasename_no_slash (s : Str) : '/' ∉ pyBasename s := by
  intro hmem
  rw [pyBasename, List.mem_reverse] at hmem
  have := List.mem_takeWhile_imp hmem
  simp at this

theorem pyBasename_eq_self (s : Str) (h : '/' ∉ s) : pyBasename s = s := by
  rw [pyBasename, List.takeWhile_eq_self_iff.mpr, List.reverse_reverse]
  intro c hc
  have hcs : c ∈ s := List.mem_reverse.mp hc
  simp only [bne_iff_ne, ne_eq]
  intro hcc
  exact h (hcc ▸ hcs)

theorem compareLastUrlGo_self (u : Str) (hu : pyBasename u = u) :
    ∀ n, compareLastUrlGo u u n = true := by
  intro n
  induction n with
  | zero => rfl
  | succ n ih => rw [compareLastUrlGo, hu]; simp [ih]

/-- C10: with the default component limit of three, the trailing-path
comparator on two present strings returns true exactly when the basenames -
the parts after the last slash - are equal; the recursion passes the two
basenames to itself, so the directory parts never influence the result. -/
theorem c10_compare_basenames_only (s t : Str) :
    compare_last_url_components (some s) (some t) 3 = true ↔ pyBasename s = pyBasename t := by
  show compareLastUrlGo s t 3 = true ↔ pyBasename s = pyBasename t
  constructor
  · intro h
    rw [compareLastUrlGo] at h
    by_cases he : pyBasename s = pyBasename t
    · exact he
    · rw [if_neg he] at h; exact absurd h (by simp)
  · intro h
    rw [compareLastUrlGo, h, if_pos rfl]
    exact compareLastUrlGo_self (pyBasename t)
      (pyBasename_eq_self (pyBasename t) (pyBasename_no_slash t)) 2

/-- C1: the unique classification of the source reconciler is inverted.  A
loose file whose trailing component does match an archive-embedded entry is
returned as unique, and a loose file matching no entry is dropped - the
opposite of the claim and of the function's own log messages. -/
theorem c1_code_eval :
    identify_unique_loose_java_files [looseFooJava] [embeddedFooClass] = [looseFooJava] ∧
    compare_last_url_components (some (splitExtRoot looseFooJava)) (some (splitExtRoot embeddedFooClass)) 3 = true ∧
    identify_unique_loose_java_files [looseBarJava] [embeddedFooClass] = [] ∧
    compare_last_url_components (some (splitExtRoot looseBarJava)) (some (splitExtRoot embeddedFooClass)) 3 = false := by
  decide

/-- C3: the reference count of find_longest_common_substring is not the
maximum occurrence count.  On this universe the code retains every substring
(the first-listed count is one, so the threshold is zero) and returns the
lexicographic maximum z, while the claim's computation - threshold four from
the true maximum five - would retain exactly the substring a. -/
theorem c3_code_eval :
    find_longest_common_substring commonalityUniverse = zS ∧
    maxNat ((occurrencesOf commonalityUniverse).map (fun p => p.2)) = 5 ∧
    ((occurrencesOf commonalityUniverse).filter
        (fun p => maxNat ((occurrencesOf commonalityUniverse).map (fun q => q.2)) * 4 / 5 ≤ p.2)).map
      (fun p => p.1) = [aS] ∧
    zS ≠ aS := by
  decide

/-- C5: the validator does not accept exactly when the spec's shape rules
hold.  The value of a single bar contains no alphabetic character, yet the
name validator accepts it (the regex class [a-z|A-Z] also matches the bar);
the value of a space followed by the letter a contains whitespace, yet the
group-id validator accepts it (the no-spaces pattern permits surrounding
whitespace). -/
theorem c5_code_eval :
    test_metadata_against_type_criteria kName (some barStr) = true ∧
    (∀ c ∈ barStr, ¬ (('a' ≤ c ∧ c ≤ 'z') ∨ ('A' ≤ c ∧ c ≤ 'Z'))) ∧
    test_metadata_against_type_criteria kGroupId (some spaceAStr) = true ∧
    ' ' ∈ spaceAStr := by
  decide

/-- C9: after any strategy step the pending list is a sublist of the pending
list before it - elements are only removed in place, never added or
reordered - and each of the three metadata-only strategies leaves the
pending list unchanged, as it resolves an empty subset. -/
theorem c9_pending_sublist (env : PipelineEnv) (st : PipelineState) (strategy : JarStrategy) :
    (run_strategy env st strategy).pending.Sublist st.pending ∧
    (strategy = JarStrategy.inferFromPaths ∨ strategy = JarStrategy.manifestExtract ∨
        strategy = JarStrategy.fillDummy →
      (run_strategy env st strategy).pending = st.pending) := by
  constructor
  · show (remove_all_from_list st.pending _).Sublist st.pending
    rw [remove_all_from_list]
    split
    · exact List.filter_sublist _
    · exact List.Sublist.refl _
  · intro h
    rcases h with h | h | h <;> subst h <;> rfl

theorem c9_pending_sublist_witness :
    (run_strategy envAllFail ⟨[aJar], []⟩ JarStrategy.fillDummy).pending = [aJar] :=
  (c9_pending_sublist envAllFail ⟨[aJar], []⟩ JarStrategy.fillDummy).2 (Or.inr (Or.inr rfl))

theorem getLast?_mem_of {α : Type} (l : List α) (a : α) (h : l.getLast? = some a) : a ∈ l := by
  induction l with
  | nil => simp at h
  | cons b t ih =>
    cases t with
    | nil => simp at h; simp [h]
    | cons c u =>
      rw [List.getLast?_cons_cons] at h
      exact List.mem_cons_of_mem _ (ih h)

theorem perm_any_eq {α : Type} {l l' : List α} (h : l.Perm l') (f : α → Bool) :
    l.any f = l'.any f := by
  have h1 : l.any f = true ↔ l'.any f = true := by
    simp only [List.any_eq_true]
    constructor
    · rintro ⟨x, hx, hfx⟩; exact ⟨x, h.mem_iff.mp hx, hfx⟩
    · rintro ⟨x, hx, hfx⟩; exact ⟨x, h.mem_iff.mpr hx, hfx⟩
  cases hb : l.any f with
  | true => exact (h1.mp hb).symm
  | false =>
    cases hb' : l'.any f with
    | false => rfl
    | true => exact absurd (h1.mpr hb') (by simp [hb])

theorem processLines_cons (d : Rec) (key ms line : Str) (rest : List Str) :
    processLines d key ms (line :: rest) =
      processLines
        (if !line.isEmpty && searchCI ms line then dput d key (manifestMatchValue ms line) else d)
        key ms rest := rfl

theorem processField_cons (d : Rec) (key ms : Str) (rest : List Str) (lines : List Str) :
    processField d key (ms :: rest) lines = processField (processLines d key ms lines) key rest lines := rfl

theorem dGet_processLines_ne (d : Rec) (key ms : Str) (lines : List Str) (k' : Str) (h : k' ≠ key) :
    dGet (processLines d key ms lines) k' = dGet d k' := by
  induction lines generalizing d with
  | nil => rfl
  | cons line rest ih =>
    rw [processLines_cons, ih]
    split
    · exact dGet_dput_ne d key k' _ h
    · rfl

theorem dGet_processLines_self (d : Rec) (key ms : Str) (lines : List Str) :
    dGet (processLines d key ms lines) key =
      match lastMatchingLine lines ms with
      | some line => some (manifestMatchValue ms line)
      | none => dGet d key := by
  induction lines generalizing d with
  | nil => rfl
  | cons line rest ih =>
    rw [processLines_cons, ih]
    simp only [lastMatchingLine, List.filter_cons]
    by_cases hc : (!line.isEmpty && searchCI ms line) = true
    · rw [if_pos hc, if_pos hc]
      cases hf : List.filter (fun l => !l.isEmpty && searchCI ms l) rest with
      | nil => simp [dGet_dput_self]
      | cons b t =>
        rw [List.getLast?_cons_cons]
        cases hl : (b :: t).getLast? with
        | none => exact absurd (List.getLast?_eq_none_iff.mp hl) (by simp)
        | some lst => rfl
    · rw [if_neg hc, if_neg hc]

theorem dGet_processField_ne (d : Rec) (key : Str) (syns : List Str) (lines : List Str)
    (k' : Str) (h : k' ≠ key) :
    dGet (processField d key syns lines) k' = dGet d k' := by
  induction syns generalizing d with
  | nil => rfl
  | cons ms rest ih => rw [processField_cons, ih, dGet_processLines_ne _ _ _ _ _ h]

theorem lastMatchingLine_eq_none (lines : List Str) (ms : Str) (h : synHasMatch lines ms = false) :
    lastMatchingLine lines ms = none := by
  rw [lastMatchingLine, List.getLast?_eq_none_iff, List.filter_eq_nil_iff]
  intro a ha
  rw [synHasMatch, List.any_eq_false] at h
  exact h a ha

theorem lastMatchingLine_isSome (lines : List Str) (ms : Str) (h : synHasMatch lines ms = true) :
    ∃ l, lastMatchingLine lines ms = some l := by
  rw [synHasMatch, List.any_eq_true] at h
  obtain ⟨x, hx, hfx⟩ := h
  have hne : List.filter (fun line => !line.isEmpty && searchCI ms line) lines ≠ [] := by
    intro hnil
    exact absurd hfx (by simpa using List.filter_eq_nil_iff.mp hnil x hx)
  cases hl : lastMatchingLine lines ms with
  | none => exact absurd (List.getLast?_eq_none_iff.mp hl) hne
  | some l => exact ⟨l, rfl⟩

theorem dGet_processField_self (d : Rec) (key : Str) (syns : List Str) (lines : List Str) :
    dGet (processField d key syns lines) key =
      match lastSynContribution lines syns with
      | some v => some v
      | none => dGet d key := by
  induction syns generalizing d with
  | nil => rfl
  | cons ms rest ih =>
    rw [processField_cons, ih]
    simp only [lastSynContribution, List.filter_cons]
    by_cases hm : synHasMatch lines ms = true
    · rw [if_pos hm]
      cases hf : List.filter (synHasMatch lines) rest with
      | nil =>
        obtain ⟨l, hl⟩ := lastMatchingLine_isSome lines ms hm
        simp [dGet_processLines_self, hl]
      | cons b t =>
        rw [List.getLast?_cons_cons]
        cases hl : (b :: t).getLast? with
        | none => exact absurd (List.getLast?_eq_none_iff.mp hl) (by simp)
        | some lst =>
          have hlst : synHasMatch lines lst = true := by
            have hmem := getLast?_mem_of _ _ hl
            rw [← hf] at hmem
            exact (List.mem_filter.mp hmem).2
          obtain ⟨l2, hl2⟩ := lastMatchingLine_isSome lines lst hlst
          simp [hl2]
    · rw [if_neg hm]
      have hnone := lastMatchingLine_eq_none lines ms (by simpa using hm)
      cases hf : List.filter (synHasMatch lines) rest with
      | nil => simp [dGet_processLines_self, hnone]
      | cons b t =>
        cases hl : (b :: t).getLast? with
        | none => exact absurd (List.getLast?_eq_none_iff.mp hl) (by simp)
        | some lst =>
          have hlst : synHasMatch lines lst = true := by
            have hmem := getLast?_mem_of _ _ hl
            rw [← hf] at hmem
            exact (List.mem_filter.mp hmem).2
          obtain ⟨l2, hl2⟩ := lastMatchingLine_isSome lines lst hlst
          simp [hl2]

theorem parse_manifest_eq (m : Str) (hm : m.isEmpty = false) :
    parse_manifest m =
      processField
        (processField
          (processField (processField [] kName nameSyns (splitOnNl m)) kGroupId groupIdSyns (splitOnNl m))
          kArtifactId artifactIdSyns (splitOnNl m))
        kVersion versionSyns (splitOnNl m) := by
  rw [parse_manifest, if_neg (by simp [hm])]
  rfl

theorem dGet_parse_manifest_name (m : Str) :
    dGet (parse_manifest m) kName = lastSynContribution (splitOnNl m) nameSyns := by
  cases hm : m.isEmpty with
  | true =>
    have hm' : m = [] := List.isEmpty_iff.mp hm
    subst hm'
    rfl
  | false =>
    rw [parse_manifest_eq m hm]
    rw [dGet_processField_ne _ _ _ _ _ (by decide)]
    rw [dGet_processField_ne _ _ _ _ _ (by decide)]
    rw [dGet_processField_ne _ _ _ _ _ (by decide)]
    rw [dGet_processField_self]
    cases h : lastSynContribution (splitOnNl m) nameSyns <;> rfl

theorem dGet_parse_manifest_group (m : Str) :
    dGet (parse_manifest m) kGroupId = lastSynContribution (splitOnNl m) groupIdSyns := by
  cases hm : m.isEmpty with
  | true =>
    have hm' : m = [] := List.isEmpty_iff.mp hm
    subst hm'
    rfl
  | false =>
    rw [parse_manifest_eq m hm]
    rw [dGet_processField_ne _ _ _ _ _ (by decide)]
    rw [dGet_processField_ne _ _ _ _ _ (by decide)]
    rw [dGet_processField_self]
    cases h : lastSynContribution (splitOnNl m) groupIdSyns with
    | none => rw [dGet_processField_ne _ _ _ _ _ (by decide)]; rfl
    | some v => rfl

theorem dGet_parse_manifest_artifact (m : Str) :
    dGet (parse_manifest m) kArtifactId = lastSynContribution (splitOnNl m) artifactIdSyns := by
  cases hm : m.isEmpty with
  | true =>
    have hm' : m = [] := List.isEmpty_iff.mp hm
    subst hm'
    rfl
  | false =>
    rw [parse_manifest_eq m hm]
    rw [dGet_processField_ne _ _ _ _ _ (by decide)]
    rw [dGet_processField_self]
    cases h : lastSynContribution (splitOnNl m) artifactIdSyns with
    | none =>
      rw [dGet_processField_ne _ _ _ _ _ (by decide)]
      rw [dGet_processField_ne _ _ _ _ _ (by decide)]
      rfl
    | some v => rfl

theorem dGet_parse_manifest_version (m : Str) :
    dGet (parse_manifest m) kVersion = lastSynContribution (splitOnNl m) versionSyns := by
  cases hm : m.isEmpty with
  | true =>
    have hm' : m = [] := List.isEmpty_iff.mp hm
    subst hm'
    rfl
  | false =>
    rw [parse_manifest_eq m hm]
    rw [dGet_processField_self]
    cases h : lastSynContribution (splitOnNl m) versionSyns with
    | none =>
      rw [dGet_processField_ne _ _ _ _ _ (by decide)]
      rw [dGet_processField_ne _ _ _ _ _ (by decide)]
      rw [dGet_processField_ne _ _ _ _ _ (by decide)]
      rfl
    | some v => rfl

/-- C7: for every manifest text and every canonical field, the extracted
candidate is the contribution of the last synonym of the field's precedence
list that matches any non-empty line (its value taken from that synonym's
last matching line); which synonym wins is invariant under any permutation
of the lines; and on the two-line fixture the name field and the artifact-id
field both resolve to B. -/
theorem c7_manifest_precedence :
    (∀ m : Str, dGet (parse_manifest m) kName = lastSynContribution (splitOnNl m) nameSyns) ∧
    (∀ m : Str, dGet (parse_manifest m) kGroupId = lastSynContribution (splitOnNl m) groupIdSyns) ∧
    (∀ m : Str, dGet (parse_manifest m) kArtifactId = lastSynContribution (splitOnNl m) artifactIdSyns) ∧
    (∀ m : Str, dGet (parse_manifest m) kVersion = lastSynContribution (splitOnNl m) versionSyns) ∧
    (∀ (lines lines' syns : List Str), lines.Perm lines' →
      syns.filter (synHasMatch lines) = syns.filter (synHasMatch lines')) ∧
    dGet (parse_manifest fixtureManifest) kName = some valB ∧
    dGet (parse_manifest fixtureManifest) kArtifactId = some valB := by
  refine ⟨dGet_parse_manifest_name, dGet_parse_manifest_group, dGet_parse_manifest_artifact,
    dGet_parse_manifest_version, ?_, by decide, by decide⟩
  intro lines lines' syns h
  apply List.filter_congr
  intro ms _
  rw [synHasMatch, synHasMatch]
  exact perm_any_eq h _

theorem c7_manifest_precedence_witness :
    dGet (parse_manifest fixtureManifest) kName = some valB ∧
    nameSyns.filter (synHasMatch [valA, valB]) = nameSyns.filter (synHasMatch [valB, valA]) :=
  ⟨c7_manifest_precedence.2.2.2.2.2.1,
   c7_manifest_precedence.2.2.2.2.1 [valA, valB] [valB, valA] nameSyns (List.Perm.swap _ _ _)⟩

theorem contribution_exists (lines syns : List Str) (v : Str)
    (h : lastSynContribution lines syns = some v) :
    ∃ ms ∈ syns, ∃ line ∈ lines, line.isEmpty = false ∧ searchCI ms line = true ∧
      v = pyStrip (line.drop ms.length) := by
  rw [lastSynContribution] at h
  cases hf : (syns.filter (synHasMatch lines)).getLast? with
  | none => rw [hf] at h; exact absurd h (by simp)
  | some ms =>
    rw [hf] at h
    dsimp only at h
    have hms : ms ∈ syns := (List.mem_filter.mp (getLast?_mem_of _ _ hf)).1
    cases hl : lastMatchingLine lines ms with
    | none => rw [hl] at h; exact absurd h (by simp)
    | some line =>
      rw [hl] at h
      simp only [Option.map_some'] at h
      have hl2 := hl
      rw [lastMatchingLine] at hl2
      obtain ⟨hlin, hcond⟩ := List.mem_filter.mp (getLast?_mem_of _ _ hl2)
      obtain ⟨h1, h2⟩ := (Bool.and_eq_true _ _).mp hcond
      refine ⟨ms, hms, line, hlin, ?_, h2, ?_⟩
      · simpa using h1
      · exact (Option.some.injEq _ _ ▸ h).symm

/-- C8 amended: every value stored by the manifest extractor is the matched
line with its first header-length characters removed and then stripped -
which equals the remainder after the header only when the header occurs at
the start of the line. -/
theorem c8_value_extraction_amended (m key : Str) (syns : List Str)
    (hmem : (key, syns) ∈ manifestFieldOrder) (v : Str)
    (h : dGet (parse_manifest m) key = some v) :
    ∃ ms ∈ syns, ∃ line ∈ splitOnNl m, line.isEmpty = false ∧ searchCI ms line = true ∧
      v = pyStrip (line.drop ms.length) := by
  simp only [manifestFieldOrder, List.mem_cons, List.mem_singleton, Prod.mk.injEq,
    List.not_mem_nil, or_false] at hmem
  rcases hmem with ⟨hk, hs⟩ | ⟨hk, hs⟩ | ⟨hk, hs⟩ | ⟨hk, hs⟩ <;> subst hk <;> subst hs
  · exact contribution_exists _ _ _ ((dGet_parse_manifest_name m) ▸ h)
  · exact contribution_exists _ _ _ ((dGet_parse_manifest_group m) ▸ h)
  · exact contribution_exists _ _ _ ((dGet_parse_manifest_artifact m) ▸ h)
  · exact contribution_exists _ _ _ ((dGet_parse_manifest_version m) ▸ h)

theorem c8_value_extraction_amended_witness :
    ∃ ms ∈ nameSyns, ∃ line ∈ splitOnNl fixtureManifest, line.isEmpty = false ∧
      searchCI ms line = true ∧ valB = pyStrip (line.drop ms.length) :=
  c8_value_extraction_amended fixtureManifest kName nameSyns (by decide) valB (by decide)

/-- C8 counterexample: on a line in which the Implementation-Title header
occurs at position two, the stored name value is the line with its first
twenty-one characters removed and stripped, not the remainder after the
header (which would be A). -/
theorem c8_counterexample :
    dGet (parse_manifest midLineManifest) kName = some midLineStored ∧ midLineStored ≠ valA := by
  decide

theorem foldl_rec_inv {α β : Type} (P : β → Prop) (f : β → α → β) (l : List α) (b : β)
    (hb : P b) (hstep : ∀ c x, x ∈ l → P c → P (f c x)) : P (l.foldl f b) := by
  induction l generalizing b with
  | nil => exact hb
  | cons a t ih =>
    rw [List.foldl_cons]
    exact ih (f b a) (hstep b a (List.mem_cons_self a t) hb)
      (fun c x hx hc => hstep c x (List.mem_cons_of_mem _ hx) hc)

theorem mem_dput_prop {α : Type} {P : Str × α → Prop} {d : List (Str × α)} {k : Str} {v : α}
    (hd : ∀ q ∈ d, P q) (hkv : P (k, v)) : ∀ q ∈ dput d k v, P q := by
  intro q hq
  rcases mem_dput d k v q hq with h | h
  · exact hd q h
  · exact h ▸ hkv

theorem dHas_dput_mono {α : Type} (d : List (Str × α)) (k j : Str) (v : α)
    (h : dHas d j = true) : dHas (dput d k v) j = true := by
  by_cases hjk : j = k
  · subst hjk; exact dHas_dput_self d j v
  · rw [dHas_dput_ne d k j v hjk]; exact h

theorem dHas_eq_false_iff {α : Type} (d : List (Str × α)) (k : Str) :
    dHas d k = false ↔ k ∉ d.map (fun p => p.1) := by
  rw [dHas, List.any_eq_false]
  constructor
  · intro h hmem
    obtain ⟨p, hp, hpk⟩ := List.mem_map.mp hmem
    exact h p hp (by simp [hpk])
  · intro h p hp
    simp only [Bool.not_eq_true, beq_eq_false_iff_ne, ne_eq]
    intro hpk
    exact h (List.mem_map.mpr ⟨p, hp, hpk⟩)

theorem nodup_keys_dput {α : Type} (d : List (Str × α)) (k : Str) (v : α)
    (h : (d.map (fun p => p.1)).Nodup) : ((dput d k v).map (fun p => p.1)).Nodup := by
  rw [keys_dput]
  cases hh : dHas d k with
  | true => simpa using h
  | false =>
    simp only [Bool.false_eq_true, if_false]
    rw [List.nodup_append]
    exact ⟨h, List.nodup_singleton k, by
      intro a ha hb
      rw [List.mem_singleton] at hb
      exact (dHas_eq_false_iff d k).mp hh (hb ▸ ha)⟩

theorem dGet_mem {α : Type} (d : List (Str × α)) (k : Str) (r : α)
    (h : dGet d k = some r) : ∃ p ∈ d, p.2 = r := by
  rw [dGet] at h
  cases hf : d.find? (fun p => p.1 == k) with
  | none => rw [hf] at h; exact absurd h (by simp)
  | some p =>
    rw [hf] at h
    simp only [Option.map_some'] at h
    exact ⟨p, List.mem_of_find?_eq_some hf, Option.some.inj h⟩

theorem valid_filter_build (metadata : Rec) :
    ∀ q ∈ metadata.foldl (fun acc kv =>
        if test_metadata_against_type_criteria kv.1 (some kv.2) then dput acc kv.1 kv.2 else acc) [],
      test_metadata_against_type_criteria q.1 (some q.2) = true := by
  apply foldl_rec_inv
    (fun acc : Rec => ∀ q ∈ acc, test_metadata_against_type_criteria q.1 (some q.2) = true)
  · intro q hq; simp at hq
  · intro c kv _ hc
    split
    case isTrue ht => exact mem_dput_prop hc ht
    case isFalse => exact hc

theorem canon_filter_build (metadata : Rec) (hmd : ∀ q ∈ metadata, q.1 ∈ canonicalKeyList) :
    ∀ q ∈ metadata.foldl (fun acc kv =>
        if test_metadata_against_type_criteria kv.1 (some kv.2) then dput acc kv.1 kv.2 else acc) [],
      q.1 ∈ canonicalKeyList := by
  apply foldl_rec_inv (fun acc : Rec => ∀ q ∈ acc, q.1 ∈ canonicalKeyList)
  · intro q hq; simp at hq
  · intro c kv hkv hc
    split
    · exact mem_dput_prop hc (hmd kv hkv)
    · exact hc

theorem nodup_filter_build (metadata : Rec) :
    ((metadata.foldl (fun acc kv =>
        if test_metadata_against_type_criteria kv.1 (some kv.2) then dput acc kv.1 kv.2 else acc)
        []).map (fun q => q.1)).Nodup := by
  apply foldl_rec_inv (fun acc : Rec => (acc.map (fun q => q.1)).Nodup)
  · simp
  · intro c kv _ hc
    split
    · exact nodup_keys_dput c kv.1 kv.2 hc
    · exact hc

theorem mem_merge_metadata (base toMerge : Rec) (ow : Bool) :
    ∀ q ∈ merge_metadata base toMerge ow, q ∈ base ∨ q ∈ toMerge := by
  rw [merge_metadata]
  split
  · intro q hq; exact Or.inr hq
  · split
    · intro q hq; exact Or.inl hq
    · apply foldl_rec_inv (fun b : Rec => ∀ q ∈ b, q ∈ base ∨ q ∈ toMerge)
      · intro q hq; exact Or.inl hq
      · intro c kv hkv hc
        split
        · exact mem_dput_prop hc (Or.inr hkv)
        · exact hc

theorem nodup_merge_metadata (base toMerge : Rec) (ow : Bool)
    (hb : (base.map (fun q => q.1)).Nodup) (ht : (toMerge.map (fun q => q.1)).Nodup) :
    ((merge_metadata base toMerge ow).map (fun q => q.1)).Nodup := by
  rw [merge_metadata]
  split
  · exact ht
  · split
    · exact hb
    · apply foldl_rec_inv (fun b : Rec => (b.map (fun q => q.1)).Nodup)
      · exact hb
      · intro c kv _ hc
        split
        · exact nodup_keys_dput c kv.1 kv.2 hc
        · exact hc

theorem base_rec_prop (Q : Rec → Prop) (store : Store) (jar : Str)
    (hnil : Q []) (h : ∀ p ∈ store, Q p.2) : Q ((dGet store jar).getD []) := by
  cases hg : dGet store jar with
  | none => exact hnil
  | some r =>
    obtain ⟨p, hp, hpr⟩ := dGet_mem store jar r hg
    simpa [hpr] using h p hp

theorem validStore_add (store : Store) (jar : Str) (md : Rec) (ow : Bool)
    (h : ValidStore store) : ValidStore (add_to_global_metadata store jar md ow) := by
  simp only [add_to_global_metadata]
  split
  · split
    · intro p hp
      rcases mem_dput _ _ _ _ hp with hmem | heq
      · exact h p hmem
      · subst heq
        intro q hq
        rcases mem_merge_metadata _ _ _ q hq with hb | hv
        · exact base_rec_prop
            (fun r => ∀ q ∈ r, test_metadata_against_type_criteria q.1 (some q.2) = true)
            store jar (by simp) (fun p hp => h p hp) q hb
        · exact valid_filter_build md q hv
    · intro p hp
      rcases mem_dput _ _ _ _ hp with hmem | heq
      · exact h p hmem
      · subst heq
        intro q hq
        exact valid_filter_build md q hq
  · exact h

theorem canonStore_add (store : Store) (jar : Str) (md : Rec) (ow : Bool)
    (hmd : ∀ q ∈ md, q.1 ∈ canonicalKeyList)
    (h : CanonStore store) : CanonStore (add_to_global_metadata store jar md ow) := by
  simp only [add_to_global_metadata]
  split
  · split
    · intro p hp
      rcases mem_dput _ _ _ _ hp with hmem | heq
      · exact h p hmem
      · subst heq
        intro q hq
        rcases mem_merge_metadata _ _ _ q hq with hb | hv
        · exact base_rec_prop (fun r => ∀ q ∈ r, q.1 ∈ canonicalKeyList)
            store jar (by simp) (fun p hp => h p hp) q hb
        · exact canon_filter_build md hmd q hv
    · intro p hp
      rcases mem_dput _ _ _ _ hp with hmem | heq
      · exact h p hmem
      · subst heq
        intro q hq
        exact canon_filter_build md hmd q hq
  · exact h

theorem nodupStore_add (store : Store) (jar : Str) (md : Rec) (ow : Bool)
    (h : NodupStore store) : NodupStore (add_to_global_metadata store jar md ow) := by
  obtain ⟨h1, h2⟩ := h
  simp only [add_to_global_metadata]
  split
  · split
    · constructor
      · exact nodup_keys_dput store jar _ h1
      · apply mem_dput_prop (fun p hp => h2 p hp)
        exact nodup_merge_metadata _ _ _
          (base_rec_prop (fun r => (r.map (fun q => q.1)).Nodup) store jar (by simp)
            (fun p hp => h2 p hp))
          (nodup_filter_build md)
    · constructor
      · exact nodup_keys_dput store jar _ h1
      · apply mem_dput_prop (fun p hp => h2 p hp)
        exact nodup_filter_build md
  · exact ⟨h1, h2⟩

theorem dHas_add_mono (store : Store) (jar : Str) (md : Rec) (ow : Bool) (j : Str)
    (h : dHas store j = true) : dHas (add_to_global_metadata store jar md ow) j = true := by
  simp only [add_to_global_metadata]
  split
  · split
    · exact dHas_dput_mono _ _ _ _ h
    · exact dHas_dput_mono _ _ _ _ h
  · exact h

theorem dGet_add_ne (store : Store) (jar : Str) (md : Rec) (ow : Bool) (j : Str)
    (hne : j ≠ jar) : dGet (add_to_global_metadata store jar md ow) j = dGet store j := by
  simp only [add_to_global_metadata]
  split
  · split
    · exact dGet_dput_ne _ _ _ _ hne
    · exact dGet_dput_ne _ _ _ _ hne
  · rfl

theorem fill_metadata_cons (store : Store) (a : Str) (rest : List Str) (key : Str) (val : Option Str) :
    fill_metadata store (a :: rest) key val =
      fill_metadata
        (if !dHas store a then dput store a [(key, fillInsertValue a val)]
        else if !dHas ((dGet store a).getD []) key then
          add_to_global_metadata store a [(key, fillInsertValue a val)] false
        else store)
        rest key val := rfl

theorem dHas_fill_mono (store : Store) (jars : List Str) (key : Str) (val : Option Str) (j : Str)
    (h : dHas store j = true) : dHas (fill_metadata store jars key val) j = true := by
  rw [fill_metadata]
  apply foldl_rec_inv (fun st : Store => dHas st j = true)
  · exact h
  · intro c jar _ hc
    dsimp only
    split
    · exact dHas_dput_mono _ _ _ _ hc
    · split
      · exact dHas_add_mono _ _ _ _ _ hc
      · exact hc

theorem dHas_fill_self (store : Store) (jars : List Str) (key : Str) (val : Option Str) (j : Str)
    (hj : j ∈ jars) : dHas (fill_metadata store jars key val) j = true := by
  induction jars generalizing store with
  | nil => simp at hj
  | cons a rest ih =>
    rw [fill_metadata_cons]
    rcases List.mem_cons.mp hj with rfl | hj'
    · apply dHas_fill_mono
      cases h1 : dHas store j with
      | false => rw [if_pos (by simp [h1])]; exact dHas_dput_self _ _ _
      | true =>
        rw [if_neg (by simp [h1])]
        split
        · exact dHas_add_mono _ _ _ _ _ h1
        · exact h1
    · exact ih _ hj'

theorem validStore_fill_version (store : Store) (jars : List Str) (h : ValidStore store) :
    ValidStore (fill_metadata store jars kVersion (some ver10)) := by
  rw [fill_metadata]
  apply foldl_rec_inv (fun st : Store => ValidStore st)
  · exact h
  · intro c jar _ hc
    dsimp only
    split
    · intro p hp
      rcases mem_dput _ _ _ _ hp with hm | he
      · exact hc p hm
      · subst he
        intro q hq
        simp only [List.mem_singleton] at hq
        subst hq
        exact (by decide : test_metadata_against_type_criteria kVersion (some ver10) = true)
    · split
      · exact validStore_add _ _ _ _ hc
      · exact hc

theorem validStore_fill_present (store : Store) (jars : List Str) (key : Str) (val : Option Str)
    (h : ValidStore store) (hpres : ∀ j ∈ jars, dHas store j = true) :
    ValidStore (fill_metadata store jars key val) := by
  rw [fill_metadata]
  refine (foldl_rec_inv
    (fun st : Store => ValidStore st ∧ ∀ j ∈ jars, dHas st j = true)
    _ jars store ⟨h, hpres⟩ ?_).1
  intro c jar hjar hc
  obtain ⟨hcv, hcp⟩ := hc
  dsimp only
  rw [if_neg (by simp [hcp jar hjar])]
  constructor
  · split
    · exact validStore_add _ _ _ _ hcv
    · exact hcv
  · intro j hj
    split
    · exact dHas_add_mono _ _ _ _ _ (hcp j hj)
    · exact hcp j hj

theorem canonStore_fill (store : Store) (jars : List Str) (key : Str) (val : Option Str)
    (hkey : key ∈ canonicalKeyList) (h : CanonStore store) :
    CanonStore (fill_metadata store jars key val) := by
  rw [fill_metadata]
  apply foldl_rec_inv (fun st : Store => CanonStore st)
  · exact h
  · intro c jar _ hc
    dsimp only
    split
    · intro p hp
      rcases mem_dput _ _ _ _ hp with hm | he
      · exact hc p hm
      · subst he
        intro q hq
        simp only [List.mem_singleton] at hq
        subst hq
        exact hkey
    · split
      · refine canonStore_add _ _ _ _ ?_ hc
        intro q hq
        simp only [List.mem_singleton] at hq
        subst hq
        exact hkey
      · exact hc

theorem nodupStore_fill (store : Store) (jars : List Str) (key : Str) (val : Option Str)
    (h : NodupStore store) : NodupStore (fill_metadata store jars key val) := by
  rw [fill_metadata]
  apply foldl_rec_inv (fun st : Store => NodupStore st)
  · exact h
  · intro c jar _ hc
    obtain ⟨h1, h2⟩ := hc
    dsimp only
    split
    · constructor
      · exact nodup_keys_dput _ _ _ h1
      · apply mem_dput_prop (fun p hp => h2 p hp)
        simp
    · split
      · exact nodupStore_add _ _ _ _ ⟨h1, h2⟩
      · exact ⟨h1, h2⟩

theorem validStore_fill_dummy (store : Store) (jars : List Str) (h : ValidStore store) :
    ValidStore (metadata_strategy_fill_dummy_values store jars) := by
  rw [metadata_strategy_fill_dummy_values]
  have s1 := validStore_fill_version store jars h
  have p1 : ∀ j ∈ jars, dHas (fill_metadata store jars kVersion (some ver10)) j = true :=
    fun j hj => dHas_fill_self _ _ _ _ j hj
  have s2 := validStore_fill_present _ jars kName none s1 p1
  have p2 : ∀ j ∈ jars,
      dHas (fill_metadata (fill_metadata store jars kVersion (some ver10)) jars kName none) j = true :=
    fun j hj => dHas_fill_mono _ _ _ _ j (p1 j hj)
  have s3 := validStore_fill_present _ jars kArtifactId none s2 p2
  have p3 : ∀ j ∈ jars,
      dHas (fill_metadata (fill_metadata (fill_metadata store jars kVersion (some ver10))
        jars kName none) jars kArtifactId none) j = true :=
    fun j hj => dHas_fill_mono _ _ _ _ j (p2 j hj)
  exact validStore_fill_present _ jars kGroupId none s3 p3

theorem canonStore_fill_dummy (store : Store) (jars : List Str) (h : CanonStore store) :
    CanonStore (metadata_strategy_fill_dummy_values store jars) := by
  rw [metadata_strategy_fill_dummy_values]
  exact canonStore_fill _ _ _ _ (by decide)
    (canonStore_fill _ _ _ _ (by decide)
      (canonStore_fill _ _ _ _ (by decide)
        (canonStore_fill _ _ _ _ (by decide) h)))

theorem nodupStore_fill_dummy (store : Store) (jars : List Str) (h : NodupStore store) :
    NodupStore (metadata_strategy_fill_dummy_values store jars) := by
  rw [metadata_strategy_fill_dummy_values]
  exact nodupStore_fill _ _ _ _ (nodupStore_fill _ _ _ _ (nodupStore_fill _ _ _ _
    (nodupStore_fill _ _ _ _ h)))

theorem parse_manifest_canon (m : Str) : ∀ q ∈ parse_manifest m, q.1 ∈ canonicalKeyList := by
  rw [parse_manifest]
  split
  · intro q hq; simp at hq
  · apply foldl_rec_inv (fun d : Rec => ∀ q ∈ d, q.1 ∈ canonicalKeyList)
    · intro q hq; simp at hq
    · intro c kv hkv hc
      apply foldl_rec_inv (fun d : Rec => ∀ q ∈ d, q.1 ∈ canonicalKeyList) _ kv.2 c hc
      intro c2 ms _ hc2
      apply foldl_rec_inv (fun d : Rec => ∀ q ∈ d, q.1 ∈ canonicalKeyList) _ _ c2 hc2
      intro c3 line _ hc3
      split
      · apply mem_dput_prop hc3
        have hall : ∀ kv2 ∈ manifestFieldOrder, kv2.1 ∈ canonicalKeyList := by decide
        exact hall kv hkv
      · exact hc3

theorem validStore_run_strategy (env : PipelineEnv) (st : PipelineState) (strat : JarStrategy)
    (h : ValidStore st.store) : ValidStore (run_strategy env st strat).store := by
  cases strat with
  | directInstall => exact h
  | inferFromPaths =>
    show ValidStore (metadata_strategy_infer_from_paths env st.store st.pending)
    rw [metadata_strategy_infer_from_paths]
    apply foldl_rec_inv (fun s : Store => ValidStore s)
    · exact h
    · intro c jar _ hc
      dsimp only
      split
      · exact validStore_add _ _ _ _ hc
      · exact hc
  | manifestExtract =>
    show ValidStore (metadata_strategy_parse_manifest env st.store st.pending)
    rw [metadata_strategy_parse_manifest]
    apply foldl_rec_inv (fun s : Store => ValidStore s)
    · exact h
    · intro c jar _ hc
      exact validStore_add _ _ _ _ hc
  | fillDummy => exact validStore_fill_dummy _ _ h
  | installFromMetadata => exact h

theorem canonStore_run_strategy (env : PipelineEnv) (st : PipelineState) (strat : JarStrategy)
    (h : CanonStore st.store) : CanonStore (run_strategy env st strat).store := by
  cases strat with
  | directInstall => exact h
  | inferFromPaths =>
    show CanonStore (metadata_strategy_infer_from_paths env st.store st.pending)
    rw [metadata_strategy_infer_from_paths]
    apply foldl_rec_inv (fun s : Store => CanonStore s)
    · exact h
    · intro c jar _ hc
      dsimp only
      split
      · refine canonStore_add _ _ _ _ ?_ hc
        intro q hq
        simp only [List.mem_cons, List.not_mem_nil, or_false] at hq
        rcases hq with rfl | rfl
        · show kGroupId ∈ canonicalKeyList
          decide
        · show kArtifactId ∈ canonicalKeyList
          decide
      · exact hc
  | manifestExtract =>
    show CanonStore (metadata_strategy_parse_manifest env st.store st.pending)
    rw [metadata_strategy_parse_manifest]
    apply foldl_rec_inv (fun s : Store => CanonStore s)
    · exact h
    · intro c jar _ hc
      exact canonStore_add _ _ _ _ (parse_manifest_canon _) hc
  | fillDummy => exact canonStore_fill_dummy _ _ h
  | installFromMetadata => exact h

theorem nodupStore_run_strategy (env : PipelineEnv) (st : PipelineState) (strat : JarStrategy)
    (h : NodupStore st.store) : NodupStore (run_strategy env st strat).store := by
  cases strat with
  | directInstall => exact h
  | inferFromPaths =>
    show NodupStore (metadata_strategy_infer_from_paths env st.store st.pending)
    rw [metadata_strategy_infer_from_paths]
    apply foldl_rec_inv (fun s : Store => NodupStore s)
    · exact h
    · intro c jar _ hc
      dsimp only
      split
      · exact nodupStore_add _ _ _ _ hc
      · exact hc
  | manifestExtract =>
    show NodupStore (metadata_strategy_parse_manifest env st.store st.pending)
    rw [metadata_strategy_parse_manifest]
    apply foldl_rec_inv (fun s : Store => NodupStore s)
    · exact h
    · intro c jar _ hc
      exact nodupStore_add _ _ _ _ hc
  | fillDummy => exact nodupStore_fill_dummy _ _ h
  | installFromMetadata => exact h

theorem storeInv_runFirst (env : PipelineEnv) (jars : List Str) (n : Nat) :
    ValidStore (runFirstStrategies env jars n).store ∧
    CanonStore (runFirstStrategies env jars n).store ∧
    NodupStore (runFirstStrategies env jars n).store := by
  rw [runFirstStrategies]
  apply foldl_rec_inv
    (fun st : PipelineState => ValidStore st.store ∧ CanonStore st.store ∧ NodupStore st.store)
  · refine ⟨?_, ?_, ?_, ?_⟩
    · intro p hp; simp at hp
    · intro p hp; simp at hp
    · simp
    · intro p hp; simp at hp
  · intro c strat _ hc
    exact ⟨validStore_run_strategy _ _ _ hc.1, canonStore_run_strategy _ _ _ hc.2.1,
      nodupStore_run_strategy _ _ _ hc.2.2⟩

theorem run_jar_strategies_eq (env : PipelineEnv) (jars : List Str) :
    run_jar_strategies env jars = runFirstStrategies env jars 5 := rfl

/-- C2: after each of the first n strategy steps of the pipeline - for every
n, so after every strategy including the dummy fill - every value present in
the metadata store passes the validator of its field; a candidate that fails
its validator is never written.  (The one write that skips the validator
call, the direct fill of a fresh record, only ever writes the version value
1.0, which the version validator accepts.) -/
theorem c2_store_values_validated (env : PipelineEnv) (jars : List Str) (n : Nat) :
    ValidStore (runFirstStrategies env jars n).store :=
  (storeInv_runFirst env jars n).1

theorem dGet_mem_key {α : Type} (d : List (Str × α)) (k : Str) (r : α)
    (h : dGet d k = some r) : ∃ p ∈ d, p.1 = k ∧ p.2 = r := by
  rw [dGet] at h
  cases hf : d.find? (fun p => p.1 == k) with
  | none => rw [hf] at h; exact absurd h (by simp)
  | some p =>
    rw [hf] at h
    simp only [Option.map_some'] at h
    have hpk := List.find?_some hf
    exact ⟨p, List.mem_of_find?_eq_some hf, eq_of_beq hpk, Option.some.inj h⟩

theorem dHas_dGet_some {α : Type} (d : List (Str × α)) (k : Str) (h : dHas d k = true) :
    ∃ v, dGet d k = some v := by
  rw [dHas, List.any_eq_true] at h
  obtain ⟨x, hx, hxk⟩ := h
  cases hf : d.find? (fun p => p.1 == k) with
  | none => exact absurd hxk (by simpa using List.find?_eq_none.mp hf x hx)
  | some p => exact ⟨p.2, by rw [dGet, hf]; rfl⟩

theorem mem_keys_dHas {α : Type} (d : List (Str × α)) (k : Str)
    (h : k ∈ d.map (fun p => p.1)) : dHas d k = true := by
  cases hh : dHas d k with
  | true => rfl
  | false => exact absurd h ((dHas_eq_false_iff d k).mp hh)

theorem complete_partition_mem (store : Store) (jar : Str) :
    jar ∈ (find_metadata_complete_jars store).1.map (fun p => p.1) ↔
      ∃ p ∈ store, p.1 = jar ∧ (!p.2.isEmpty && p.2.length == 4) = true := by
  rw [find_metadata_complete_jars, List.partition_eq_filter_filter]
  simp only [List.mem_map, List.mem_filter]
  constructor
  · rintro ⟨p, ⟨hp, hpred⟩, hkey⟩; exact ⟨p, hp, hkey, hpred⟩
  · rintro ⟨p, hp, hkey, hpred⟩; exact ⟨p, ⟨hp, hpred⟩, hkey⟩

theorem complete_iff_four_valid (store : Store) (jar : Str) (r : Rec)
    (hmem : (jar, r) ∈ store) (hv : ValidStore store) (hcn : CanonStore store)
    (hnd : NodupStore store) :
    jar ∈ (find_metadata_complete_jars store).1.map (fun p => p.1) ↔
      ∀ f ∈ canonicalKeyList, ∃ v, dGet r f = some v ∧
        test_metadata_against_type_criteria f (some v) = true := by
  rw [complete_partition_mem]
  have hkeysnd : (r.map (fun q => q.1)).Nodup := hnd.2 (jar, r) hmem
  have hsub : (r.map (fun q => q.1)) ⊆ canonicalKeyList := by
    intro x hx
    obtain ⟨q, hq, hqx⟩ := List.mem_map.mp hx
    exact hqx ▸ hcn (jar, r) hmem q hq
  constructor
  · rintro ⟨p, hp, hkey, hpred⟩
    have hpe : p = (jar, r) := by
      apply List.inj_on_of_nodup_map hnd.1 hp hmem
      simp [hkey]
    rw [hpe] at hpred
    obtain ⟨hne, hlen⟩ := (Bool.and_eq_true _ _).mp hpred
    have hlen4 : r.length = 4 := by simpa using hlen
    have hperm : (r.map (fun q => q.1)).Perm canonicalKeyList := by
      apply (hkeysnd.subperm hsub).perm_of_length_le
      rw [List.length_map, hlen4]
      decide
    intro f hf
    have hfk : f ∈ r.map (fun q => q.1) := hperm.mem_iff.mpr hf
    obtain ⟨v, hvv⟩ := dHas_dGet_some r f (mem_keys_dHas r f hfk)
    refine ⟨v, hvv, ?_⟩
    obtain ⟨q, hq, hq1, hq2⟩ := dGet_mem_key r f v hvv
    have hval := hv (jar, r) hmem q hq
    rw [hq1, hq2] at hval
    exact hval
  · intro hall
    refine ⟨(jar, r), hmem, rfl, ?_⟩
    have hle : (r.map (fun q => q.1)).length ≤ canonicalKeyList.length :=
      (hkeysnd.subperm hsub).length_le
    have hsub2 : canonicalKeyList ⊆ (r.map (fun q => q.1)) := by
      intro f hf
      obtain ⟨v, hvv, _⟩ := hall f hf
      obtain ⟨q, hq, hq1, hq2⟩ := dGet_mem_key r f v hvv
      exact List.mem_map.mpr ⟨q, hq, hq1⟩
    have hnd2 : canonicalKeyList.Nodup := by decide
    have hge : canonicalKeyList.length ≤ (r.map (fun q => q.1)).length :=
      (hnd2.subperm hsub2).length_le
    have hc4 : canonicalKeyList.length = 4 := rfl
    rw [List.length_map, hc4] at hle hge
    have hlen : r.length = 4 := le_antisymm hle hge
    have hne : r ≠ [] := by
      intro hr
      rw [hr] at hlen
      simp at hlen
    simp [List.isEmpty_iff, hne, hlen]

/-- C6: over any reachable final state of the pipeline, an archive is
classified complete exactly when its record holds each of the four canonical
fields with a value that passes that field's validator - a membership
formulation that no insertion order can affect - and every archive attempted
by the metadata-driven install strategy is one classified complete. -/
theorem c6_complete_iff_four_valid (env : PipelineEnv) (jars : List Str) (jar : Str) (r : Rec)
    (hmem : (jar, r) ∈ (run_jar_strategies env jars).store) :
    (jar ∈ (find_metadata_complete_jars (run_jar_strategies env jars).store).1.map (fun p => p.1) ↔
      ∀ f ∈ canonicalKeyList, ∃ v, dGet r f = some v ∧
        test_metadata_against_type_criteria f (some v) = true) ∧
    (∀ j ∈ metadata_strategy_maven_install_from_metadata env (run_jar_strategies env jars).store,
      j ∈ (find_metadata_complete_jars (run_jar_strategies env jars).store).1.map (fun p => p.1)) := by
  have hinv := storeInv_runFirst env jars 5
  rw [← run_jar_strategies_eq] at hinv
  constructor
  · exact complete_iff_four_valid _ jar r hmem hinv.1 hinv.2.1 hinv.2.2
  · rw [metadata_strategy_maven_install_from_metadata, try_maven_install]
    intro j hj
    exact List.mem_of_mem_filter hj

theorem c6_complete_iff_four_valid_witness :
    aJar ∈ (find_metadata_complete_jars
      (run_jar_strategies envAllFail [aJar]).store).1.map (fun p => p.1) := by
  have h := (c6_complete_iff_four_valid envAllFail [aJar] aJar
    [(kVersion, ver10), (kName, aJarBase), (kArtifactId, aJarBase), (kGroupId, aJarBase)]
    (by decide)).1
  apply h.mpr
  intro f hf
  fin_cases hf
  · exact ⟨aJarBase, by decide, by decide⟩
  · exact ⟨aJarBase, by decide, by decide⟩
  · exact ⟨aJarBase, by decide, by decide⟩
  · exact ⟨ver10, by decide, by decide⟩

theorem dGet_none_iff_dHas_false {α : Type} (d : List (Str × α)) (k : Str) :
    dGet d k = none ↔ dHas d k = false := by
  constructor
  · intro h
    cases hh : dHas d k with
    | false => rfl
    | true =>
      obtain ⟨v, hv⟩ := dHas_dGet_some d k hh
      rw [h] at hv
      exact absurd hv (by simp)
  · intro h
    rw [dGet, Option.map_eq_none', List.find?_eq_none]
    intro x hx
    rw [dHas, List.any_eq_false] at h
    exact h x hx

theorem dHas_add_ne (store : Store) (jar : Str) (md : Rec) (ow : Bool) (j : Str)
    (hne : j ≠ jar) : dHas (add_to_global_metadata store jar md ow) j = dHas store j := by
  simp only [add_to_global_metadata]
  split
  · split
    · exact dHas_dput_ne _ _ _ _ hne
    · exact dHas_dput_ne _ _ _ _ hne
  · rfl

theorem recGet2_congr (s1 s2 : Store) (j f : Str) (h : dGet s1 j = dGet s2 j) :
    recGet2 s1 j f = recGet2 s2 j f := by
  rw [recGet2, recGet2, h]

theorem dGet_fill_not_target (store : Store) (jars : List Str) (key : Str) (val : Option Str)
    (j : Str) (hj : j ∉ jars) : dGet (fill_metadata store jars key val) j = dGet store j := by
  rw [fill_metadata]
  apply foldl_rec_inv (fun st : Store => dGet st j = dGet store j)
  · rfl
  · intro c jar hjar hc
    have hne : j ≠ jar := fun he => hj (he ▸ hjar)
    dsimp only
    split
    · rw [dGet_dput_ne _ _ _ _ hne, hc]
    · split
      · rw [dGet_add_ne _ _ _ _ _ hne, hc]
      · exact hc

theorem merge_singleton_absent (base : Rec) (key ins : Str) (h : dHas base key = false) :
    merge_metadata base [(key, ins)] false = dput base key ins := by
  cases base with
  | nil => rfl
  | cons b bs =>
    rw [merge_metadata, if_neg (by simp), if_neg (by simp)]
    show (if false || !dHas (b :: bs) key then dput (b :: bs) key ins else (b :: bs)) =
      dput (b :: bs) key ins
    rw [h]
    rfl

theorem merge_nil_right (base : Rec) (ow : Bool) :
    merge_metadata base [] ow = if base.isEmpty then [] else base := by
  cases base with
  | nil => rfl
  | cons b bs => rfl

theorem add_singleton_eval (c : Store) (jar key ins : Str) (hjar : jar ≠ [])
    (hd : dHas c jar = true) :
    add_to_global_metadata c jar [(key, ins)] false =
      dput c jar (merge_metadata ((dGet c jar).getD [])
        (if test_metadata_against_type_criteria key (some ins) then [(key, ins)] else []) false) := by
  simp only [add_to_global_metadata]
  rw [if_pos, if_pos hd]
  · rfl
  · simp [List.isEmpty_iff, hjar]

theorem recGet2_fill_step_self (c : Store) (jar key : Str) (val : Option Str) (f : Str)
    (hjar : jar ≠ []) :
    recGet2
      (if !dHas c jar then dput c jar [(key, fillInsertValue jar val)]
       else if !dHas ((dGet c jar).getD []) key then
         add_to_global_metadata c jar [(key, fillInsertValue jar val)] false
       else c) jar f =
      (if f = key then
        match recGet2 c jar key with
        | some v => some v
        | none =>
          if dHas c jar = false then some (fillInsertValue jar val)
          else if test_metadata_against_type_criteria key (some (fillInsertValue jar val)) = true then
            some (fillInsertValue jar val)
          else none
      else recGet2 c jar f) := by
  cases hd : dHas c jar with
  | false =>
    have hnone : dGet c jar = none := (dGet_none_iff_dHas_false c jar).mpr hd
    rw [if_pos (by simp [hd])]
    have hl : recGet2 (dput c jar [(key, fillInsertValue jar val)]) jar f
        = dGet [(key, fillInsertValue jar val)] f := by
      rw [recGet2, dGet_dput_self]
    rw [hl]
    have hcn : recGet2 c jar key = none := by rw [recGet2, hnone]
    have hcf : recGet2 c jar f = none := by rw [recGet2, hnone]
    by_cases hf : f = key
    · subst hf
      rw [if_pos rfl, hcn, dGet_cons]
      simp
    · rw [if_neg hf, hcf, dGet_cons]
      have hb : (key == f) = false := beq_eq_false_iff_ne.mpr (fun h => hf h.symm)
      rw [hb]
      rfl
  | true =>
    rw [if_neg (by simp [hd])]
    obtain ⟨r, hr⟩ := dHas_dGet_some c jar hd
    have hgd : (dGet c jar).getD [] = r := by rw [hr]; rfl
    rw [hgd]
    cases hk : dHas r key with
    | true =>
      rw [if_neg (by simp [hk])]
      obtain ⟨v, hv⟩ := dHas_dGet_some r key hk
      have e1 : recGet2 c jar key = some v := by rw [recGet2, hr]; exact hv
      by_cases hf : f = key
      · subst hf
        rw [if_pos rfl, e1]
      · rw [if_neg hf]
    | false =>
      rw [if_pos (by simp [hk])]
      rw [add_singleton_eval c jar key _ hjar hd, hgd]
      have e0 : recGet2 c jar key = none := by
        rw [recGet2, hr]
        exact (dGet_none_iff_dHas_false r key).mpr hk
      cases ht : test_metadata_against_type_criteria key (some (fillInsertValue jar val)) with
      | true =>
        have hmerge : merge_metadata r (if true = true then [(key, fillInsertValue jar val)] else [])
            false = dput r key (fillInsertValue jar val) := by
          rw [if_pos rfl]
          exact merge_singleton_absent r key _ hk
        rw [hmerge]
        have hl : recGet2 (dput c jar (dput r key (fillInsertValue jar val))) jar f
            = dGet (dput r key (fillInsertValue jar val)) f := by
          rw [recGet2, dGet_dput_self]
        rw [hl]
        by_cases hf : f = key
        · subst hf
          rw [if_pos rfl, e0, dGet_dput_self]
          rw [if_neg (by simp [hd]), if_pos rfl]
        · rw [if_neg hf, dGet_dput_ne _ _ _ _ hf, recGet2, hr]
      | false =>
        have hmerge : merge_metadata r (if false = true then [(key, fillInsertValue jar val)] else [])
            false = if r.isEmpty then [] else r := by
          rw [if_neg (by simp)]
          exact merge_nil_right r false
        rw [hmerge]
        have hl : recGet2 (dput c jar (if r.isEmpty then [] else r)) jar f
            = dGet (if r.isEmpty then [] else r) f := by
          rw [recGet2, dGet_dput_self]
        rw [hl]
        have hgf : dGet (if r.isEmpty then [] else r) f = dGet r f := by
          cases hre : r.isEmpty with
          | false => rw [if_neg (by simp [hre])]
          | true =>
            rw [if_pos (by simp [hre])]
            have he : r = [] := List.isEmpty_iff.mp hre
            rw [he]
        rw [hgf]
        by_cases hf : f = key
        · subst hf
          rw [if_pos rfl, e0, (dGet_none_iff_dHas_false r _).mpr hk]
          rw [if_neg (by simp [hd]), if_neg (by simp)]
        · rw [if_neg hf, recGet2, hr]

theorem dGet_fill_step_other (c : Store) (a key : Str) (val : Option Str) (j : Str)
    (hne : j ≠ a) :
    dGet (if !dHas c a then dput c a [(key, fillInsertValue a val)]
          else if !dHas ((dGet c a).getD []) key then
            add_to_global_metadata c a [(key, fillInsertValue a val)] false
          else c) j = dGet c j := by
  split
  · exact dGet_dput_ne _ _ _ _ hne
  · split
    · exact dGet_add_ne _ _ _ _ _ hne
    · rfl

theorem dHas_fill_step_other (c : Store) (a key : Str) (val : Option Str) (j : Str)
    (hne : j ≠ a) :
    dHas (if !dHas c a then dput c a [(key, fillInsertValue a val)]
          else if !dHas ((dGet c a).getD []) key then
            add_to_global_metadata c a [(key, fillInsertValue a val)] false
          else c) j = dHas c j := by
  split
  · exact dHas_dput_ne _ _ _ _ hne
  · split
    · exact dHas_add_ne _ _ _ _ _ hne
    · rfl

theorem dHas_fill_step_self (c : Store) (a key : Str) (val : Option Str) :
    dHas (if !dHas c a then dput c a [(key, fillInsertValue a val)]
          else if !dHas ((dGet c a).getD []) key then
            add_to_global_metadata c a [(key, fillInsertValue a val)] false
          else c) a = true := by
  split
  · exact dHas_dput_self _ _ _
  case isFalse h1 =>
    split
    · exact dHas_add_mono _ _ _ _ _ (by simpa using h1)
    · simpa using h1

theorem dGet_fill_stable (store : Store) (jars : List Str) (key : Str) (val : Option Str) (j : Str)
    (hd : dHas store j = true)
    (hst : recGet2 store j key = none →
      test_metadata_against_type_criteria key (some (fillInsertValue j val)) = false ∨ j = []) :
    dGet (fill_metadata store jars key val) j = dGet store j := by
  obtain ⟨r, hr⟩ := dHas_dGet_some store j hd
  rw [fill_metadata]
  apply foldl_rec_inv (fun st : Store => dGet st j = dGet store j)
  · rfl
  · intro c jar _ hc
    dsimp only
    by_cases hne : j = jar
    case neg =>
      split
      · rw [dGet_dput_ne _ _ _ _ hne, hc]
      · split
        · rw [dGet_add_ne _ _ _ _ _ hne, hc]
        · exact hc
    case pos =>
      subst hne
      have hcj : dGet c j = some r := by rw [hc, hr]
      have hdc : dHas c j = true := by
        cases hh : dHas c j with
        | true => rfl
        | false =>
          rw [(dGet_none_iff_dHas_false c j).mpr hh] at hcj
          exact absurd hcj (by simp)
      rw [if_neg (by simp [hdc])]
      have hgd : (dGet c j).getD [] = r := by rw [hcj]; rfl
      rw [hgd]
      cases hk : dHas r key with
      | true =>
        rw [if_neg (by simp [hk])]
        exact hc
      | false =>
        rw [if_pos (by simp [hk])]
        have hrk : recGet2 store j key = none := by
          rw [recGet2, hr]
          exact (dGet_none_iff_dHas_false r key).mpr hk
        by_cases hje : j = []
        · subst hje
          rw [add_to_global_metadata, if_neg (by simp)]
          exact hc
        · rcases hst hrk with htf | hje2
          · rw [add_singleton_eval c j key _ hje hdc, hgd, htf]
            rw [if_neg (by simp)]
            rw [merge_nil_right]
            have hnr : (if r.isEmpty then ([] : Rec) else r) = r := by
              cases hre : r.isEmpty with
              | false => rw [if_neg (by simp [hre])]
              | true => rw [if_pos (by simp [hre]), List.isEmpty_iff.mp hre]
            rw [hnr, dGet_dput_self, hr]
          · exact absurd hje2 hje

theorem recGet2_fill_mem (store : Store) (jars : List Str) (key : Str) (val : Option Str)
    (j f : Str) (hj : j ∈ jars) (hjar : j ≠ []) :
    recGet2 (fill_metadata store jars key val) j f =
      (if f = key then
        match recGet2 store j key with
        | some v => some v
        | none =>
          if dHas store j = false then some (fillInsertValue j val)
          else if test_metadata_against_type_criteria key (some (fillInsertValue j val)) = true then
            some (fillInsertValue j val)
          else none
      else recGet2 store j f) := by
  induction jars generalizing store with
  | nil => simp at hj
  | cons a rest ih =>
    rw [fill_metadata_cons]
    by_cases hja : j = a
    · subst hja
      by_cases hjr : j ∈ rest
      · have hd1 := dHas_fill_step_self store j key val
        have hstab := dGet_fill_stable _ rest key val j hd1 ?_
        · rw [recGet2_congr _ _ j f hstab, recGet2_fill_step_self store j key val f hjar]
        · intro h0
          rw [recGet2_fill_step_self store j key val key hjar, if_pos rfl] at h0
          cases hv : recGet2 store j key with
          | some v => rw [hv] at h0; exact absurd h0 (by simp)
          | none =>
            rw [hv] at h0
            cases hdd : dHas store j with
            | false => rw [hdd] at h0; simp at h0
            | true =>
              rw [hdd] at h0
              rw [if_neg (by simp)] at h0
              cases ht : test_metadata_against_type_criteria key (some (fillInsertValue j val)) with
              | true => rw [ht] at h0; simp at h0
              | false => exact Or.inl rfl
      · rw [recGet2_congr _ _ j f (dGet_fill_not_target _ rest key val j hjr),
          recGet2_fill_step_self store j key val f hjar]
    · have hjr : j ∈ rest := by
        rcases List.mem_cons.mp hj with h | h
        · exact absurd h hja
        · exact h
      rw [ih _ hjr]
      have hg := dGet_fill_step_other store a key val j hja
      have hh := dHas_fill_step_other store a key val j hja
      rw [recGet2_congr _ _ j key hg, recGet2_congr _ _ j f hg, hh]

/-- C4 counterexample: with two discovered archives of which the second is
installed by the direct-install strategy, the dummy-fill step fills only the
still-pending first archive - the installed archive never enters the store,
so its fields are not filled - and even on the pending archive the group-id
and artifact-id stay missing, because its basename contains a space and
fails their validator.  This contradicts the claim that every still-missing
field of every originally discovered archive is filled. -/
theorem c4_counterexample :
    (run_jar_strategies envDirectOk twoJars).store =
      [(abJar, [(kVersion, ver10), (kName, abJarBase)])] ∧
    dGet (run_jar_strategies envDirectOk twoJars).store okJar = none ∧
    recGet2 (run_jar_strategies envDirectOk twoJars).store abJar kGroupId = none ∧
    okJar ∈ twoJars := by
  decide

/-- C4 amended: when the dummy-fill strategy runs on the jars passed to it -
the archives still pending at that step, not all originally discovered ones -
then for every such archive with a non-empty path and every canonical field,
a field already present keeps its value, and a missing field is filled with
the synthetic default (version 1.0, otherwise the archive's base filename)
exactly when that default passes the field's validator; a default failing
validation is dropped and the field stays missing. -/
theorem c4_dummy_fill_amended (store : Store) (jars : List Str) (jar : Str)
    (hj : jar ∈ jars) (hjar : jar ≠ []) (f : Str) (hf : f ∈ canonicalKeyList) :
    recGet2 (metadata_strategy_fill_dummy_values store jars) jar f =
      (match recGet2 store jar f with
       | some v => some v
       | none =>
         if test_metadata_against_type_criteria f (some (dummyDefault f jar)) = true then
           some (dummyDefault f jar)
         else none) := by
  rw [metadata_strategy_fill_dummy_values]
  have hs1 : dHas (fill_metadata store jars kVersion (some ver10)) jar = true :=
    dHas_fill_self _ _ _ _ jar hj
  have hs2 : dHas (fill_metadata (fill_metadata store jars kVersion (some ver10)) jars
      kName none) jar = true := dHas_fill_mono _ _ _ _ _ hs1
  have hs3 : dHas (fill_metadata (fill_metadata (fill_metadata store jars kVersion (some ver10))
      jars kName none) jars kArtifactId none) jar = true := dHas_fill_mono _ _ _ _ _ hs2
  fin_cases hf
  · rw [recGet2_fill_mem _ jars kGroupId none jar kName hj hjar,
      if_neg (by decide : ¬(kName = kGroupId))]
    rw [recGet2_fill_mem _ jars kArtifactId none jar kName hj hjar,
      if_neg (by decide : ¬(kName = kArtifactId))]
    rw [recGet2_fill_mem _ jars kName none jar kName hj hjar, if_pos rfl]
    rw [recGet2_fill_mem store jars kVersion (some ver10) jar kName hj hjar,
      if_neg (by decide : ¬(kName = kVersion))]
    rw [hs1, if_neg (by decide : ¬(true = false))]
    have hdd : dummyDefault kName jar = fillInsertValue jar none := by
      rw [dummyDefault, if_neg (by decide : ¬(kName = kVersion))]
      rfl
    rw [hdd]
  · rw [recGet2_fill_mem _ jars kGroupId none jar kGroupId hj hjar, if_pos rfl]
    rw [recGet2_fill_mem _ jars kArtifactId none jar kGroupId hj hjar,
      if_neg (by decide : ¬(kGroupId = kArtifactId))]
    rw [recGet2_fill_mem _ jars kName none jar kGroupId hj hjar,
      if_neg (by decide : ¬(kGroupId = kName))]
    rw [recGet2_fill_mem store jars kVersion (some ver10) jar kGroupId hj hjar,
      if_neg (by decide : ¬(kGroupId = kVersion))]
    rw [hs3, if_neg (by decide : ¬(true = false))]
    have hdd : dummyDefault kGroupId jar = fillInsertValue jar none := by
      rw [dummyDefault, if_neg (by decide : ¬(kGroupId = kVersion))]
      rfl
    rw [hdd]
  · rw [recGet2_fill_mem _ jars kGroupId none jar kArtifactId hj hjar,
      if_neg (by decide : ¬(kArtifactId = kGroupId))]
    rw [recGet2_fill_mem _ jars kArtifactId none jar kArtifactId hj hjar, if_pos rfl]
    rw [recGet2_fill_mem _ jars kName none jar kArtifactId hj hjar,
      if_neg (by decide : ¬(kArtifactId = kName))]
    rw [recGet2_fill_mem store jars kVersion (some ver10) jar kArtifactId hj hjar,
      if_neg (by decide : ¬(kArtifactId = kVersion))]
    rw [hs2, if_neg (by decide : ¬(true = false))]
    have hdd : dummyDefault kArtifactId jar = fillInsertValue jar none := by
      rw [dummyDefault, if_neg (by decide : ¬(kArtifactId = kVersion))]
      rfl
    rw [hdd]
  · rw [recGet2_fill_mem _ jars kGroupId none jar kVersion hj hjar,
      if_neg (by decide : ¬(kVersion = kGroupId))]
    rw [recGet2_fill_mem _ jars kArtifactId none jar kVersion hj hjar,
      if_neg (by decide : ¬(kVersion = kArtifactId))]
    rw [recGet2_fill_mem _ jars kName none jar kVersion hj hjar,
      if_neg (by decide : ¬(kVersion = kName))]
    rw [recGet2_fill_mem store jars kVersion (some ver10) jar kVersion hj hjar, if_pos rfl]
    have hdd : dummyDefault kVersion jar = fillInsertValue jar (some ver10) := by
      rw [dummyDefault, if_pos rfl]
      rfl
    rw [hdd]
    have htv : test_metadata_against_type_criteria kVersion
        (some (fillInsertValue jar (some ver10))) = true :=
      (by decide : test_metadata_against_type_criteria kVersion (some ver10) = true)
    rw [htv, if_pos (show true = true from rfl)]
    by_cases hb : dHas store jar = false
    · rw [if_pos hb]
    · rw [if_neg hb]

theorem c4_dummy_fill_amended_witness :
    recGet2 (metadata_strategy_fill_dummy_values [] [abJar]) abJar kGroupId = none :=
  (c4_dummy_fill_amended [] [abJar] abJar (by decide) (by decide) kGroupId (by decide)).trans
    (by decide)
